import Mathlib

/-!
Maximum clique by branch and bound (`clique/straightforward/main.cpp`).

A shallow embedding of the program: the adjacency matrix and the neighbour
query `get_connected`, the candidate intersection `find_candidates`, the
greedy colouring bound `colors` / `upper_bound`, the recursive search
`max_clique`, the parsing loop and the seed loop of `main`.

Conventions of the embedding.

* `std::uint64_t` and `std::size_t` values are natural numbers; the two places
  where the program does arithmetic that can wrap (`id - 1` on an edge line and
  the `++` on matrix entries and degrees) carry an explicit `% 2 ^ 64`.
* `std::vector` is `List`; `push_back` appends at the end. An index outside a
  vector is undefined behaviour in the program; the model reads `0` (or the
  empty row) there and ignores such a write.
* `std::map` is an association list kept sorted by strictly increasing key,
  which is the order in which the program iterates over it.
* The clock is an oracle `expired : Nat → Bool`: `expired k` tells whether the
  `k`-th deadline test of the run (counted from `0`) finds the elapsed time
  above `time_limit`. The budget never expires when the oracle is constantly
  `false`.
* The recursion of `max_clique` is bounded by an explicit `fuel`, the nesting
  depth allowed; running out of it is a separate outcome that keeps the state
  reached. The program has no such bound: its behaviour is the outcome the
  model gives once the fuel is large enough, which no longer changes when the
  fuel grows (`max_clique_fuel_mono`). `max_clique_finished` shows that a
  fuel above the number of candidates is large enough on a matrix without
  self-adjacency, and `max_clique_finished_of_fires` that a fuel above `k` is
  large enough on every matrix when the deadline test number `k` fires.
  `seed_loop` and `search` fix the fuel at `adjacency_matrix.size() + 1`, which
  is exact on matrices without self-adjacency; `seed_loop_at` and `search_at`
  take the fuel as an argument and cover the other matrices.
* `SearchState` carries, next to `optimal_clique`, three ghost fields that the
  program never reads to decide anything but `expired`: the number of deadline
  tests made, the arguments of the `max_clique` calls entered, and the values
  assigned to `optimal_clique`, each in program order.
-/

namespace Clique

/-! ## Data model -/

/-- The type `vertex = std::uint64_t`. -/
abbrev vertex := Nat

/-- The type `vertex_array = std::vector<vertex>`. -/
abbrev vertex_array := List vertex

/-- The type `vertex_matrix = std::vector<vertex_array>`. -/
abbrev vertex_matrix := List vertex_array

/-- Number of values of a 64-bit unsigned integer. -/
def word : Nat := 2 ^ 64

/-- The `struct clique`: chosen vertices and remaining candidates. -/
structure clique where
  m_vertices : vertex_array
  m_candidates : vertex_array
deriving DecidableEq, Repr

/-- The test `row[w] > 0` on row `v` of the matrix. -/
def adjacent (adjacency_matrix : vertex_matrix) (v w : vertex) : Bool :=
  decide ((adjacency_matrix.getD v []).getD w 0 > 0)

/-! ## `get_connected` and `find_candidates` -/

/-- The function `get_connected(v, start_index)`: the loop
`for (i = start_index; i < n_vertices; ++i) if (row[i] > 0) C.push_back(i)`. -/
def get_connected (adjacency_matrix : vertex_matrix) (v : vertex) (start_index : vertex) :
    vertex_array :=
  let n_vertices := adjacency_matrix.length
  let row := adjacency_matrix.getD v []
  (List.range' start_index (n_vertices - start_index)).filter
    (fun i => decide (row.getD i 0 > 0))

/-- The function `find_candidates(clq, vertex_to_be_added)`: for every known
candidate, every element of `connected` equal to it is pushed to `out`. -/
def find_candidates (adjacency_matrix : vertex_matrix) (clq : clique)
    (vertex_to_be_added : vertex) : vertex_array :=
  let connected := get_connected adjacency_matrix vertex_to_be_added 0
  clq.m_candidates.foldl
    (fun out known_candidate =>
      connected.foldl
        (fun out possible_candidate =>
          if possible_candidate = known_candidate then out ++ [possible_candidate] else out)
        out)
    []

/-! ## `std::map` with integer keys and values -/

/-- A `std::map<vertex, _>`: pairs in strictly increasing key order. -/
abbrev std_map := List (vertex × Nat)

/-- The value stored under `k`, and `0` (the value-initialised entry) if none. -/
def map_value : std_map → vertex → Nat
  | [], _ => 0
  | (k', v) :: rest, k => if k' = k then v else map_value rest k

/-- The map after `m[k]` was evaluated: an absent key is inserted with `0`. -/
def map_index : std_map → vertex → std_map
  | [], k => [(k, 0)]
  | (k', v) :: rest, k =>
    if k < k' then (k, 0) :: (k', v) :: rest
    else if k' < k then (k', v) :: map_index rest k
    else (k', v) :: rest

/-- The map after `m[k] = x`. -/
def map_assign : std_map → vertex → Nat → std_map
  | [], k, x => [(k, x)]
  | (k', v) :: rest, k, x =>
    if k < k' then (k, x) :: (k', v) :: rest
    else if k' < k then (k', v) :: map_assign rest k x
    else (k', x) :: rest

/-- The `operator<` of `std::pair`: first components first. -/
def pair_lt (a b : vertex × Nat) : Bool :=
  decide (a.1 < b.1) || (!decide (b.1 < a.1) && decide (a.2 < b.2))

/-- The scan of `std::max_element`: `largest` is replaced by a later element
whenever `largest < element`. -/
def max_element_from (largest : vertex × Nat) : std_map → vertex × Nat
  | [] => largest
  | x :: rest => if pair_lt largest x then max_element_from x rest
                 else max_element_from largest rest

/-- The call `std::max_element(m.begin(), m.end())`; `none` is `m.end()`. -/
def max_element : std_map → Option (vertex × Nat)
  | [] => none
  | x :: rest => some (max_element_from x rest)

/-! ## `colors` and `upper_bound` -/

/-- The loop `for (neighbour : get_connected(vertex))
neighbour_colors.push_back(colors[neighbour])`, which also inserts every
neighbour that has no entry yet. -/
def neighbour_colors_loop (neighbours : vertex_array) (colors : std_map) :
    std_map × List Nat :=
  neighbours.foldl
    (fun acc neighbour => (map_index acc.1 neighbour, acc.2 ++ [map_value acc.1 neighbour]))
    (colors, [])

/-- The `while (vertex_colored != true)` loop: `supposed_color` is increased
while it occurs in `neighbour_colors`. The first argument bounds the number of
increments; `color_loop_not_mem` shows that `neighbour_colors.length` is
enough for the loop to stop by itself. -/
def color_loop (neighbour_colors : List Nat) : Nat → Nat → Nat
  | 0, supposed_color => supposed_color
  | fuel + 1, supposed_color =>
    if supposed_color ∈ neighbour_colors then
      color_loop neighbour_colors fuel (supposed_color + 1)
    else supposed_color

/-- One iteration of the loop over `vertices` in `colors`. -/
def color_vertex (adjacency_matrix : vertex_matrix) (colors : std_map) (v : vertex) :
    std_map :=
  let r := neighbour_colors_loop (get_connected adjacency_matrix v 0) colors
  map_assign r.1 v (color_loop r.2 r.2.length 1)

/-- The map `colors` at the end of the loop over `vertices`. -/
def coloring (adjacency_matrix : vertex_matrix) (vertices : vertex_array) : std_map :=
  vertices.foldl (color_vertex adjacency_matrix) []

/-- The function `colors(vertices)`. -/
def colors (adjacency_matrix : vertex_matrix) (vertices : vertex_array) : Nat :=
  if vertices.length ≤ 0 then 0
  else
    match max_element (coloring adjacency_matrix vertices) with
    | some entry => entry.2
    | none => 0

/-- The function `upper_bound(Q)`. -/
def upper_bound (adjacency_matrix : vertex_matrix) (Q : clique) : Nat :=
  Q.m_vertices.length + colors adjacency_matrix Q.m_candidates

/-! ## `max_clique` -/

/-- The mutable state of the search: the global `optimal_clique` and the ghost
history (`checks`: deadline tests made so far; `calls`: arguments of the
`max_clique` calls entered so far; `assigned`: values assigned to
`optimal_clique` so far). -/
structure SearchState where
  optimal_clique : clique
  checks : Nat
  calls : List clique
  assigned : List clique
deriving DecidableEq, Repr

/-- How a piece of the search ends: it returns, it throws `"Out of time"`, or
the model stops it because the recursion went deeper than the fuel allows. In
each case the state reached is kept. -/
inductive Outcome where
  | returned (s : SearchState)
  | out_of_time (s : SearchState)
  | no_fuel (s : SearchState)
deriving DecidableEq, Repr

/-- The clique `temp_q` of the branch loop after its two updates: the
candidates of `Q` intersected with the neighbours of `candidate`, and
`candidate` pushed behind the vertices of `Q`. -/
def temp_q (adjacency_matrix : vertex_matrix) (Q : clique) (candidate : vertex) : clique :=
  { m_vertices := Q.m_vertices ++ [candidate],
    m_candidates := find_candidates adjacency_matrix Q candidate }

/-- The loop `for (candidate : Q.m_candidates)` of `max_clique`, over the
candidates still to visit; `call` is the recursive call. An exception leaves
the loop at once. -/
def branch_loop (adjacency_matrix : vertex_matrix) (call : clique → SearchState → Outcome)
    (Q : clique) : vertex_array → SearchState → Outcome
  | [], st => .returned st
  | candidate :: rest, st =>
    match call (temp_q adjacency_matrix Q candidate) st with
    | .returned st' => branch_loop adjacency_matrix call Q rest st'
    | .out_of_time st' => .out_of_time st'
    | .no_fuel st' => .no_fuel st'

/-- The function `max_clique(Q)`. -/
def max_clique (adjacency_matrix : vertex_matrix) (expired : Nat → Bool) :
    Nat → clique → SearchState → Outcome
  | 0, _, st => .no_fuel st
  | fuel + 1, Q, st =>
    let st := { st with calls := st.calls ++ [Q] }
    let ub := upper_bound adjacency_matrix Q
    if ub ≤ st.optimal_clique.m_vertices.length then .returned st
    else if Q.m_candidates.length = 0 then
      .returned { st with optimal_clique := Q, assigned := st.assigned ++ [Q] }
    else if expired st.checks then .out_of_time { st with checks := st.checks + 1 }
    else
      branch_loop adjacency_matrix (max_clique adjacency_matrix expired fuel) Q
        Q.m_candidates { st with checks := st.checks + 1 }

/-! ## `main`: parsing, seed order, seed loop -/

/-- A line of the input file, after `split` and `atoll`: a comment, the line
`p col <n_vertices> <n_edges>`, an edge line `e <a> <b>`, or anything else. -/
inductive line where
  | c
  | p (n_vertices : Nat)
  | e (a b : Nat)
  | other
deriving DecidableEq, Repr

/-- What the parsing loop builds. -/
structure ParseState where
  adjacency_matrix : vertex_matrix
  vertex_degrees_map : std_map
deriving DecidableEq, Repr

/-- The call `m.resize(n, row)` of `std::vector`. -/
def resize (m : vertex_matrix) (n : Nat) (row : vertex_array) : vertex_matrix :=
  m.take n ++ List.replicate (n - m.length) row

/-- The statement `adjacency_matrix[i][j]++`. -/
def incr_entry (m : vertex_matrix) (i j : vertex) : vertex_matrix :=
  m.set i ((m.getD i []).set j (((m.getD i []).getD j 0 + 1) % word))

/-- The statement `vertex_degrees_map[v]++`. -/
def map_incr (m : std_map) (v : vertex) : std_map :=
  map_assign (map_index m v) v ((map_value m v + 1) % word)

/-- The vertex `static_cast<vertex>(atoll(..)) - 1` of an edge line. -/
def vertex_of_id (a : Nat) : vertex := (a + (word - 1)) % word

/-- The body of the parsing loop for one line. -/
def parse_line (s : ParseState) : line → ParseState
  | .c => s
  | .other => s
  | .p n_vertices =>
    { s with adjacency_matrix :=
        resize s.adjacency_matrix n_vertices (List.replicate n_vertices 0) }
  | .e a b =>
    let v1 := vertex_of_id a
    let v2 := vertex_of_id b
    { adjacency_matrix := incr_entry (incr_entry s.adjacency_matrix v1 v2) v2 v1,
      vertex_degrees_map := map_incr (map_incr s.vertex_degrees_map v1) v2 }

/-- The parsing loop of `main`. -/
def parse (lines : List line) : ParseState :=
  lines.foldl parse_line { adjacency_matrix := [], vertex_degrees_map := [] }

/-- The comparator of the `std::sort` call: `pair1.second > pair2.second`. -/
def degree_gt (pair1 pair2 : vertex × Nat) : Bool := decide (pair1.2 > pair2.2)

/-- Insertion of one element into a list sorted by `degree_gt`, behind the
elements it is not greater than. -/
def sort_insert (x : vertex × Nat) : List (vertex × Nat) → List (vertex × Nat)
  | [] => [x]
  | y :: rest => if degree_gt x y then x :: y :: rest else y :: sort_insert x rest

/-- The order `std::sort` leaves `vertex_degrees` in, for an implementation
that keeps elements of equal degree in their order (insertion sort, which the
usual implementations use on ranges of at most 16 elements). `std::sort` does
not promise this and on longer ranges tied seeds can come out in another
order; the result is always one of the orders `sorted_by_degree` admits
(`sort_by_degree_admissible`), and the theorems on the search quantify over
every order of the seeds, so none depends on how ties are broken. -/
def sort_by_degree (l : List (vertex × Nat)) : List (vertex × Nat) :=
  l.foldl (fun sorted x => sort_insert x sorted) []

/-- The state at `start_time = _chrono::now()`: an empty `optimal_clique`. -/
def initial_state : SearchState :=
  { optimal_clique := { m_vertices := [], m_candidates := [] },
    checks := 0, calls := [], assigned := [] }

/-- The clique `q` the seed loop builds for one element of `vertex_degrees`. -/
def seed_clique (adjacency_matrix : vertex_matrix) (element : vertex × Nat) : clique :=
  { m_vertices := [element.1],
    m_candidates := get_connected adjacency_matrix element.1 0 }

/-- The seed loop of `main` over `vertex_degrees`. Each `max_clique` call gets
`adjacency_matrix.size() + 1` units of fuel, a bound the program does not
have: it is never reached on a matrix without self-adjacency
(`seed_loop_finished`), and the loop is `seed_loop_at` at that fuel
(`seed_loop_eq_seed_loop_at`). On a matrix with self-adjacency the program can
nest deeper; its runs are those of `seed_loop_at` with a larger fuel. -/
def seed_loop (adjacency_matrix : vertex_matrix) (expired : Nat → Bool) :
    List (vertex × Nat) → SearchState → Outcome
  | [], st => .returned st
  | element :: rest, st =>
    match max_clique adjacency_matrix expired (adjacency_matrix.length + 1)
        (seed_clique adjacency_matrix element) st with
    | .returned st' => seed_loop adjacency_matrix expired rest st'
    | .out_of_time st' => .out_of_time st'
    | .no_fuel st' => .no_fuel st'

/-- The search phase of `main` for a given order of the seeds. -/
def search (adjacency_matrix : vertex_matrix) (expired : Nat → Bool)
    (vertex_degrees : List (vertex × Nat)) : Outcome :=
  seed_loop adjacency_matrix expired vertex_degrees initial_state

/-- The function `main` after its argument checks: parse, sort, search. -/
def run_main (lines : List line) (expired : Nat → Bool) : Outcome :=
  let s := parse lines
  search s.adjacency_matrix expired (sort_by_degree s.vertex_degrees_map)

/-- The budget that never expires. -/
def never : Nat → Bool := fun _ => false

/-- The clique held by `optimal_clique` when the run ends. -/
def final_clique : Outcome → Option clique
  | .returned s => some s.optimal_clique
  | .out_of_time s => some s.optimal_clique
  | .no_fuel _ => none

/-- The clique size `main` prints (`optimal_clique.m_vertices.size()`). -/
def reported_size (o : Outcome) : Option Nat :=
  (final_clique o).map (fun q => q.m_vertices.length)

/-- The exit status of `main`: `0` after the seed loop, `1` from the handler. -/
def exit_status : Outcome → Option Nat
  | .returned _ => some 0
  | .out_of_time _ => some 1
  | .no_fuel _ => none

/-! ## Specification vocabulary -/

/-- The state an outcome carries satisfies `P`. -/
def Outcome.ends_in (P : SearchState → Prop) : Outcome → Prop
  | .returned s => P s
  | .out_of_time s => P s
  | .no_fuel s => P s

/-- The run ended by itself: it returned or it threw, with a state. -/
def Outcome.finished : Outcome → Prop
  | .returned _ => True
  | .out_of_time _ => True
  | .no_fuel _ => False

/-- Symmetric adjacency: `adjacent(u, v)` exactly when `adjacent(v, u)`. -/
def symmetric (adjacency_matrix : vertex_matrix) : Prop :=
  ∀ u v, adjacent adjacency_matrix u v = adjacent adjacency_matrix v u

/-- No self-adjacency. -/
def loop_free (adjacency_matrix : vertex_matrix) : Prop :=
  ∀ v, adjacent adjacency_matrix v v = false

/-- Every two distinct positions of `vs` hold distinct, adjacent vertices. -/
def pairwise_adjacent (adjacency_matrix : vertex_matrix) (vs : vertex_array) : Prop :=
  ∀ i j, i < vs.length → j < vs.length → i ≠ j →
    vs.getD i 0 ≠ vs.getD j 0 ∧ adjacent adjacency_matrix (vs.getD i 0) (vs.getD j 0) = true

/-- The invariant of a partial clique: the vertices are pairwise adjacent,
every candidate is adjacent to every vertex, and no vertex is a candidate. -/
def partial_clique_inv (adjacency_matrix : vertex_matrix) (Q : clique) : Prop :=
  (∀ a ∈ Q.m_vertices, ∀ b ∈ Q.m_vertices, a ≠ b → adjacent adjacency_matrix a b = true) ∧
  (∀ w ∈ Q.m_candidates, ∀ a ∈ Q.m_vertices, adjacent adjacency_matrix w a = true) ∧
  (∀ a ∈ Q.m_vertices, a ∉ Q.m_candidates)

/-- The size order on clique values: fewer chosen vertices. -/
def smaller (a b : clique) : Prop := a.m_vertices.length < b.m_vertices.length

/-- The assignments to `optimal_clique` made between the states `st0` and `st`:
the log of `st` continues the log of `st0` by cliques without candidates whose
sizes increase strictly, starting above the size of `optimal_clique` at `st0`,
and `optimal_clique` at `st` is the last of them (the old value if there is
none). -/
def history_ok (st0 st : SearchState) : Prop :=
  ∃ new : List clique,
    st.assigned = st0.assigned ++ new ∧
    List.Chain' smaller (st0.optimal_clique :: new) ∧
    (∀ q ∈ new, q.m_candidates = []) ∧
    (st0.optimal_clique :: new).getLast? = some st.optimal_clique

/-- Input file of a graph on six vertices: vertex `5` (id) is joined to `1`,
`2`, `3` and `4`; `3`, `4` and `5` form a triangle; `6` hangs on `4`. -/
def kite_lines : List line :=
  [.p 6, .e 5 1, .e 5 2, .e 5 3, .e 5 4, .e 3 4, .e 4 6]

/-- The adjacency matrix the parsing loop builds from `kite_lines`. -/
def kite : vertex_matrix := (parse kite_lines).adjacency_matrix

/-- The vertices of `vs` are below `n`, distinct and pairwise adjacent: `vs`
lists a clique of the graph. -/
def is_clique (adjacency_matrix : vertex_matrix) (vs : vertex_array) : Bool :=
  vs.all (fun a => decide (a < adjacency_matrix.length)) &&
  decide (vs.Pairwise (fun a b =>
    a ≠ b ∧ adjacent adjacency_matrix a b = true ∧ adjacent adjacency_matrix b a = true))

/-- The maximum clique number of the graph: the largest size of a clique among
the subsets of the vertices `0 .. n-1`. -/
def clique_number (adjacency_matrix : vertex_matrix) : Nat :=
  (((List.range adjacency_matrix.length).sublists.filter (is_clique adjacency_matrix)).map
    List.length).foldl max 0

/-- The largest colour that the colouring loop of `colors` has assigned to a
vertex of the sequence, read from the final map. -/
def max_color_assigned (adjacency_matrix : vertex_matrix) (vertices : vertex_array) : Nat :=
  (vertices.map (map_value (coloring adjacency_matrix vertices))).foldl max 0

/-- Input file of the graph with two vertices and the edge between them. -/
def edge_lines : List line := [.p 2, .e 1 2]

/-- The adjacency matrix the parsing loop builds from `edge_lines`. -/
def edge_graph : vertex_matrix := (parse edge_lines).adjacency_matrix

/-- Input file of a graph with three vertices of which the third is isolated. -/
def isolated_lines : List line := [.p 3, .e 1 2]

/-- The outcome is a normal return. -/
def Outcome.is_returned : Outcome → Prop
  | .returned _ => True
  | .out_of_time _ => False
  | .no_fuel _ => False

/-- The matrix of the complete graph on `n` vertices: `n` rows of length `n`,
and two vertices below `n` are adjacent exactly when they differ. -/
def complete (n : Nat) (adjacency_matrix : vertex_matrix) : Prop :=
  adjacency_matrix.length = n ∧
  (∀ row ∈ adjacency_matrix, row.length = n) ∧
  ∀ u, u < n → ∀ v, v < n → adjacent adjacency_matrix u v = decide (u ≠ v)

/-- The entry `adjacency_matrix[x][y]`. -/
def entry (adjacency_matrix : vertex_matrix) (x y : vertex) : Nat :=
  (adjacency_matrix.getD x []).getD y 0

/-- A matrix of `n` rows of length `n`. -/
def square (n : Nat) (adjacency_matrix : vertex_matrix) : Prop :=
  adjacency_matrix.length = n ∧ ∀ row ∈ adjacency_matrix, row.length = n

/-- The input file with the line `p col n ..` followed by one edge line
`e a b` for each pair `(a, b)` of `es`, in the order of `es`. -/
def graph_lines (n : Nat) (es : List (Nat × Nat)) : List line :=
  .p n :: es.map (fun x => line.e x.1 x.2)

/-- The number of edge lines of `es` that increment the entry `[x][y]`: the
lines `e a b` with `a - 1 = x` and `b - 1 = y`, and those with `b - 1 = x` and
`a - 1 = y`. -/
def hits (es : List (Nat × Nat)) (x y : vertex) : Nat :=
  es.countP (fun l => decide (vertex_of_id l.1 = x ∧ vertex_of_id l.2 = y)) +
  es.countP (fun l => decide (vertex_of_id l.2 = x ∧ vertex_of_id l.1 = y))

/-- The list `es` of id pairs is an edge list of the complete graph on the
vertices with ids `1 .. n`: every line joins two different ids of that range,
and any two different vertices are joined by exactly one line, in one of the
two orders. -/
def complete_edge_list (n : Nat) (es : List (Nat × Nat)) : Prop :=
  (∀ l ∈ es, 1 ≤ l.1 ∧ l.1 ≤ n ∧ 1 ≤ l.2 ∧ l.2 ≤ n ∧ l.1 ≠ l.2) ∧
  ∀ x, x < n → ∀ y, y < n → x ≠ y →
    es.count (x + 1, y + 1) + es.count (y + 1, x + 1) = 1

/-- The keys of a map, in iteration order. -/
def keys (m : std_map) : List vertex := m.map Prod.fst

/-- The ten edges of the complete graph on the ids `1 .. 5`. -/
def k5_edges : List (Nat × Nat) :=
  [(1, 2), (1, 3), (1, 4), (1, 5), (2, 3), (2, 4), (2, 5), (3, 4), (3, 5), (4, 5)]

/-- The state an outcome carries satisfies `R` when the run returned (or was
stopped by the fuel) and `T` when it threw `"Out of time"`. -/
def Outcome.ends_with (R T : SearchState → Prop) : Outcome → Prop
  | .returned s => R s
  | .out_of_time s => T s
  | .no_fuel s => R s

/-- No deadline test made so far found the time limit exceeded. -/
def no_check_fired (expired : Nat → Bool) (st : SearchState) : Prop :=
  ∀ k, k < st.checks → expired k = false

/-- The state `s` is the one in which the deadline test of a `max_clique` call
raises the signal: the call is on some `Q` that is not pruned and has
candidates, it started in a state `st` in which no earlier test had fired, the
test with index `st.checks` fires, and `s` is `st` with this call and this
test recorded and nothing else changed. -/
def raised_at (adjacency_matrix : vertex_matrix) (expired : Nat → Bool) (s : SearchState) :
    Prop :=
  ∃ (st : SearchState) (Q : clique),
    no_check_fired expired st ∧
    expired st.checks = true ∧
    ¬ upper_bound adjacency_matrix Q ≤ st.optimal_clique.m_vertices.length ∧
    Q.m_candidates ≠ [] ∧
    s = { optimal_clique := st.optimal_clique, checks := st.checks + 1,
          calls := st.calls ++ [Q], assigned := st.assigned }

/-- The keys of the map increase strictly, as in every `std::map`. -/
def map_sorted (m : std_map) : Prop := (keys m).Pairwise (· < ·)

/-- The vertices `colors(candidates)` touches: the candidates and, for each
candidate, its neighbours `get_connected(candidate)`. -/
def touched (adjacency_matrix : vertex_matrix) (candidates : vertex_array) : vertex_array :=
  candidates ++ candidates.flatMap (fun c => get_connected adjacency_matrix c 0)

/-- The largest vertex id of a list (`0` for the empty list). -/
def max_vertex (l : vertex_array) : vertex := l.foldl max 0

/-- The number of times the edge lines of `es` name the vertex `k`: as first
endpoint plus as second endpoint. -/
def occurrences (es : List (Nat × Nat)) (k : vertex) : Nat :=
  es.countP (fun l => decide (vertex_of_id l.1 = k)) +
  es.countP (fun l => decide (vertex_of_id l.2 = k))

/-- The line `b` is the line `a`, or `a` with its two endpoints exchanged. -/
def same_edge (a b : Nat × Nat) : Prop := b = a ∨ b = (a.2, a.1)

/-- The list `es'` lists the edges of `es` in another order of the lines,
some of them with their two endpoints exchanged. -/
def reordered (es es' : List (Nat × Nat)) : Prop :=
  ∃ mid : List (Nat × Nat), List.Forall₂ same_edge es mid ∧ mid.Perm es'

/-- No vertex of the graph is adjacent to every member of `vs`: the clique `vs`
cannot be extended. -/
def inclusion_maximal (adjacency_matrix : vertex_matrix) (vs : vertex_array) : Prop :=
  ∀ w, w < adjacency_matrix.length → ¬ ∀ a ∈ vs, adjacent adjacency_matrix a w = true

/-- The candidates of `Q` include every vertex of the graph that is adjacent
to all vertices of `Q`. -/
def candidates_complete (adjacency_matrix : vertex_matrix) (Q : clique) : Prop :=
  ∀ w, w < adjacency_matrix.length →
    (∀ a ∈ Q.m_vertices, adjacent adjacency_matrix a w = true) → w ∈ Q.m_candidates

/-- The orders `std::sort` with the comparator `degree_gt` may leave
`vertex_degrees` in: the same elements, no element before one of greater
degree. -/
def sorted_by_degree (vertex_degrees sorted : List (vertex × Nat)) : Prop :=
  sorted.Perm vertex_degrees ∧ sorted.Pairwise (fun a b => degree_gt b a = false)

theorem mem_get_connected (adj : vertex_matrix) (v s w : vertex) :
    w ∈ get_connected adj v s ↔
      s ≤ w ∧ w < adj.length ∧ (adj.getD v []).getD w 0 > 0 := by
  unfold get_connected
  simp only [List.mem_filter, List.mem_range'_1, decide_eq_true_eq]
  unfold vertex at *
  constructor
  · rintro ⟨⟨h1, h2⟩, h3⟩
    exact ⟨h1, by omega, h3⟩
  · rintro ⟨h1, h2, h3⟩
    exact ⟨⟨h1, by omega⟩, h3⟩

theorem get_connected_pairwise (adj : vertex_matrix) (v s : vertex) :
    (get_connected adj v s).Pairwise (· < ·) := by
  unfold get_connected
  exact List.Pairwise.filter _ (List.pairwise_lt_range' _ _)

theorem get_connected_nodup (adj : vertex_matrix) (v s : vertex) :
    (get_connected adj v s).Nodup :=
  (get_connected_pairwise adj v s).imp (fun h => Nat.ne_of_lt h)

theorem mem_get_connected_zero (adj : vertex_matrix) (v w : vertex) :
    w ∈ get_connected adj v 0 ↔ w < adj.length ∧ adjacent adj v w = true := by
  simp [mem_get_connected, adjacent]

theorem get_connected_length_le (adj : vertex_matrix) (v s : vertex) :
    (get_connected adj v s).length ≤ adj.length := by
  unfold get_connected
  refine (List.length_filter_le _ _).trans ?_
  simp

/-! ## Candidate intersection -/

theorem inner_loop_eq (connected : vertex_array) (k : vertex) (out : vertex_array) :
    connected.foldl
        (fun out possible_candidate =>
          if possible_candidate = k then out ++ [possible_candidate] else out) out
      = out ++ connected.filter (fun p => decide (p = k)) := by
  induction connected generalizing out with
  | nil => simp
  | cons p rest ih =>
    simp only [List.foldl_cons, List.filter_cons]
    rw [ih]
    by_cases h : p = k <;> simp [h]

theorem filter_eq_of_nodup (l : vertex_array) (k : vertex) (hl : l.Nodup) :
    l.filter (fun p => decide (p = k)) = if k ∈ l then [k] else [] := by
  induction l with
  | nil => simp
  | cons p rest ih =>
    have hp : p ∉ rest := (List.nodup_cons.mp hl).1
    have hr := ih (List.nodup_cons.mp hl).2
    by_cases h : p = k
    · subst h
      simp [List.filter_cons, hr, hp]
    · have h' : ¬ k = p := fun e => h e.symm
      simp [List.filter_cons, h, h', hr]

theorem outer_loop_eq (connected cands : vertex_array) (hc : connected.Nodup)
    (out : vertex_array) :
    cands.foldl
        (fun out known_candidate =>
          connected.foldl
            (fun out possible_candidate =>
              if possible_candidate = known_candidate then out ++ [possible_candidate] else out)
            out) out
      = out ++ cands.filter (fun k => decide (k ∈ connected)) := by
  induction cands generalizing out with
  | nil => simp
  | cons k rest ih =>
    simp only [List.foldl_cons]
    rw [inner_loop_eq, ih, filter_eq_of_nodup _ _ hc]
    by_cases h : k ∈ connected <;> simp [List.filter_cons, h]

theorem find_candidates_eq_filter (adj : vertex_matrix) (clq : clique) (c : vertex) :
    find_candidates adj clq c
      = clq.m_candidates.filter (fun k => decide (k ∈ get_connected adj c 0)) := by
  unfold find_candidates
  simp only []
  rw [outer_loop_eq _ _ (get_connected_nodup adj c 0)]
  simp

theorem mem_find_candidates (adj : vertex_matrix) (clq : clique) (c w : vertex) :
    w ∈ find_candidates adj clq c ↔
      w ∈ clq.m_candidates ∧ w < adj.length ∧ adjacent adj c w = true := by
  rw [find_candidates_eq_filter]
  simp [List.mem_filter, mem_get_connected_zero]

theorem find_candidates_length_le (adj : vertex_matrix) (clq : clique) (c : vertex) :
    (find_candidates adj clq c).length ≤ clq.m_candidates.length := by
  rw [find_candidates_eq_filter]
  exact List.length_filter_le _ _

theorem find_candidates_length_lt (adj : vertex_matrix) (clq : clique) (c : vertex)
    (hloop : loop_free adj) (hc : c ∈ clq.m_candidates) :
    (find_candidates adj clq c).length < clq.m_candidates.length := by
  rw [find_candidates_eq_filter]
  apply List.length_filter_lt_length_iff_exists.mpr
  refine ⟨c, hc, ?_⟩
  simp [mem_get_connected_zero, hloop c]

/-! ## Reasoning rules for the search -/

theorem branch_loop_ends_in (adj : vertex_matrix) (call : clique → SearchState → Outcome)
    (Q : clique) (P : SearchState → Prop) (cs : vertex_array)
    (hcall : ∀ c ∈ cs, ∀ st, P st → (call (temp_q adj Q c) st).ends_in P) :
    ∀ st, P st → (branch_loop adj call Q cs st).ends_in P := by
  induction cs with
  | nil => intro st hst; simpa [branch_loop, Outcome.ends_in] using hst
  | cons c rest ih =>
    intro st hst
    have h1 := hcall c (List.mem_cons_self _ _) st hst
    have ih' := ih (fun c' hc' => hcall c' (List.mem_cons_of_mem _ hc'))
    unfold branch_loop
    cases hres : call (temp_q adj Q c) st with
    | returned s' =>
      rw [hres] at h1
      exact ih' s' h1
    | out_of_time s' =>
      rw [hres] at h1
      exact h1
    | no_fuel s' =>
      rw [hres] at h1
      exact h1

theorem branch_loop_finished (adj : vertex_matrix) (call : clique → SearchState → Outcome)
    (Q : clique) (cs : vertex_array)
    (hcall : ∀ c ∈ cs, ∀ st, (call (temp_q adj Q c) st).finished) :
    ∀ st, (branch_loop adj call Q cs st).finished := by
  induction cs with
  | nil => intro st; simp [branch_loop, Outcome.finished]
  | cons c rest ih =>
    intro st
    have h1 := hcall c (List.mem_cons_self _ _) st
    have ih' := ih (fun c' hc' => hcall c' (List.mem_cons_of_mem _ hc'))
    unfold branch_loop
    cases hres : call (temp_q adj Q c) st with
    | returned s' => exact ih' s'
    | out_of_time s' => trivial
    | no_fuel s' => rw [hres] at h1; exact h1

/-- Invariant rule for `max_clique`: a state property kept by the three state
updates of the function is kept by every call on a clique satisfying a
property that the branch loop passes on to its children. -/
theorem max_clique_ends_in (adj : vertex_matrix) (expired : Nat → Bool)
    (I : clique → Prop) (P : SearchState → Prop)
    (hchild : ∀ Q c, I Q → c ∈ Q.m_candidates → I (temp_q adj Q c))
    (hcall : ∀ Q st, I Q → P st → P { st with calls := st.calls ++ [Q] })
    (hassign : ∀ Q st, I Q → P st →
      st.optimal_clique.m_vertices.length < upper_bound adj Q →
      Q.m_candidates.length = 0 →
      P { st with optimal_clique := Q, assigned := st.assigned ++ [Q] })
    (hcheck : ∀ st, P st → P { st with checks := st.checks + 1 }) :
    ∀ fuel Q st, I Q → P st → (max_clique adj expired fuel Q st).ends_in P := by
  intro fuel
  induction fuel with
  | zero => intro Q st _ hst; exact hst
  | succ fuel ih =>
    intro Q st hQ hst
    have h1 := hcall Q st hQ hst
    unfold max_clique
    simp only []
    split
    · exact h1
    · rename_i hub
      split
      · rename_i hempty
        exact hassign Q _ hQ h1 (by simpa using hub) hempty
      · split
        · exact hcheck _ h1
        · apply branch_loop_ends_in
          · intro c hc st' hst'
            exact ih _ _ (hchild Q c hQ hc) hst'
          · exact hcheck _ h1

theorem max_clique_finished (adj : vertex_matrix) (expired : Nat → Bool)
    (hloop : loop_free adj) :
    ∀ fuel Q st, Q.m_candidates.length < fuel →
      (max_clique adj expired fuel Q st).finished := by
  intro fuel
  induction fuel with
  | zero => intro Q st h; omega
  | succ fuel ih =>
    intro Q st hlen
    unfold max_clique
    simp only []
    split
    · trivial
    · split
      · trivial
      · split
        · trivial
        · apply branch_loop_finished
          intro c hc st'
          apply ih
          have := find_candidates_length_lt adj Q c hloop hc
          simp only [temp_q]
          omega

theorem seed_loop_ends_in (adj : vertex_matrix) (expired : Nat → Bool)
    (I : clique → Prop) (P : SearchState → Prop)
    (hchild : ∀ Q c, I Q → c ∈ Q.m_candidates → I (temp_q adj Q c))
    (hcall : ∀ Q st, I Q → P st → P { st with calls := st.calls ++ [Q] })
    (hassign : ∀ Q st, I Q → P st →
      st.optimal_clique.m_vertices.length < upper_bound adj Q →
      Q.m_candidates.length = 0 →
      P { st with optimal_clique := Q, assigned := st.assigned ++ [Q] })
    (hcheck : ∀ st, P st → P { st with checks := st.checks + 1 })
    (seeds : List (vertex × Nat)) (hseed : ∀ e ∈ seeds, I (seed_clique adj e)) :
    ∀ st, P st → (seed_loop adj expired seeds st).ends_in P := by
  induction seeds with
  | nil => intro st hst; simpa [seed_loop, Outcome.ends_in] using hst
  | cons e rest ih =>
    intro st hst
    have h1 := max_clique_ends_in adj expired I P hchild hcall hassign hcheck
      (adj.length + 1) (seed_clique adj e) st (hseed e (List.mem_cons_self _ _)) hst
    have ih' := ih (fun e' he' => hseed e' (List.mem_cons_of_mem _ he'))
    unfold seed_loop
    cases hres : max_clique adj expired (adj.length + 1) (seed_clique adj e) st with
    | returned s' => rw [hres] at h1; exact ih' s' h1
    | out_of_time s' => rw [hres] at h1; exact h1
    | no_fuel s' => rw [hres] at h1; exact h1

theorem seed_loop_finished (adj : vertex_matrix) (expired : Nat → Bool)
    (hloop : loop_free adj) (seeds : List (vertex × Nat)) :
    ∀ st, (seed_loop adj expired seeds st).finished := by
  induction seeds with
  | nil => intro st; simp [seed_loop, Outcome.finished]
  | cons e rest ih =>
    intro st
    have h1 := max_clique_finished adj expired hloop (adj.length + 1) (seed_clique adj e) st
      (by
        have := get_connected_length_le adj e.1 0
        simp only [seed_clique]
        omega)
    unfold seed_loop
    cases hres : max_clique adj expired (adj.length + 1) (seed_clique adj e) st with
    | returned s' => exact ih s'
    | out_of_time s' => trivial
    | no_fuel s' => rw [hres] at h1; exact h1

/-! ## The partial-clique invariant -/

theorem seed_clique_inv (adj : vertex_matrix) (hsym : symmetric adj) (hloop : loop_free adj)
    (e : vertex × Nat) : partial_clique_inv adj (seed_clique adj e) := by
  refine ⟨?_, ?_, ?_⟩
  · intro a ha b hb hab
    simp only [seed_clique, List.mem_singleton] at ha hb
    exact absurd (ha.trans hb.symm) hab
  · intro w hw a ha
    simp only [seed_clique, List.mem_singleton] at ha hw
    subst ha
    rw [hsym]
    exact ((mem_get_connected_zero adj _ w).mp hw).2
  · intro a ha hmem
    simp only [seed_clique, List.mem_singleton] at ha hmem
    subst ha
    have := ((mem_get_connected_zero adj _ _).mp hmem).2
    rw [hloop] at this
    exact Bool.noConfusion this

theorem temp_q_inv (adj : vertex_matrix) (hsym : symmetric adj) (hloop : loop_free adj)
    (Q : clique) (c : vertex) (hQ : partial_clique_inv adj Q) (hc : c ∈ Q.m_candidates) :
    partial_clique_inv adj (temp_q adj Q c) := by
  obtain ⟨h1, h2, h3⟩ := hQ
  refine ⟨?_, ?_, ?_⟩
  · intro a ha b hb hab
    simp only [temp_q, List.mem_append, List.mem_singleton] at ha hb
    rcases ha with ha | ha <;> rcases hb with hb | hb
    · exact h1 a ha b hb hab
    · subst hb
      rw [hsym]
      exact h2 b hc a ha
    · subst ha
      exact h2 a hc b hb
    · exact absurd (ha.trans hb.symm) hab
  · intro w hw a ha
    simp only [temp_q, List.mem_append, List.mem_singleton] at ha hw
    have hw' := (mem_find_candidates adj Q c w).mp hw
    rcases ha with ha | ha
    · exact h2 w hw'.1 a ha
    · subst ha
      rw [hsym]
      exact hw'.2.2
  · intro a ha hmem
    simp only [temp_q, List.mem_append, List.mem_singleton] at ha hmem
    have hm := (mem_find_candidates adj Q c a).mp hmem
    rcases ha with ha | ha
    · exact h3 a ha hm.1
    · subst ha
      have := hm.2.2
      rw [hloop] at this
      exact Bool.noConfusion this

theorem seed_clique_nodup (adj : vertex_matrix) (e : vertex × Nat) :
    (seed_clique adj e).m_vertices.Nodup := by
  simp [seed_clique]

theorem temp_q_nodup (adj : vertex_matrix) (Q : clique) (c : vertex)
    (hQ : partial_clique_inv adj Q) (hn : Q.m_vertices.Nodup) (hc : c ∈ Q.m_candidates) :
    (temp_q adj Q c).m_vertices.Nodup := by
  simp only [temp_q]
  rw [List.nodup_append]
  refine ⟨hn, List.nodup_singleton c, ?_⟩
  intro a ha hb
  simp only [List.mem_singleton] at hb
  subst hb
  exact hQ.2.2 a ha hc

theorem pairwise_adjacent_of_inv (adj : vertex_matrix) (Q : clique)
    (hQ : partial_clique_inv adj Q) (hn : Q.m_vertices.Nodup) :
    pairwise_adjacent adj Q.m_vertices := by
  intro i j hi hj hij
  rw [List.getD_eq_getElem _ _ hi, List.getD_eq_getElem _ _ hj]
  have hne : Q.m_vertices[i] ≠ Q.m_vertices[j] := by
    intro h
    exact hij ((List.Nodup.getElem_inj_iff hn).mp h)
  exact ⟨hne, hQ.1 _ (List.getElem_mem _) _ (List.getElem_mem _) hne⟩

theorem pairwise_adjacent_nil (adj : vertex_matrix) : pairwise_adjacent adj [] := by
  intro i j hi
  simp at hi

/-! ## Matrices given explicitly -/

theorem adjacent_eq_false_of_le (adj : vertex_matrix) (u v : vertex) (h : adj.length ≤ u) :
    adjacent adj u v = false := by
  unfold adjacent
  rw [List.getD_eq_default _ _ h]
  simp

theorem symmetric_of_bounded (adj : vertex_matrix)
    (hshape : ∀ row ∈ adj, row.length ≤ adj.length)
    (h : ∀ u, u < adj.length → ∀ v, v < adj.length → adjacent adj u v = adjacent adj v u) :
    symmetric adj := by
  have key : ∀ u v, adj.length ≤ u → adjacent adj v u = false := by
    intro u v hu
    by_cases hv : v < adj.length
    · have hrow : (adj.getD v []).length ≤ u := by
        rw [List.getD_eq_getElem _ _ hv]
        exact (hshape _ (List.getElem_mem _)).trans hu
      unfold adjacent
      rw [List.getD_eq_default _ _ hrow]
      simp
    · exact adjacent_eq_false_of_le adj v u (Nat.le_of_not_lt hv)
  intro u v
  by_cases hu : u < adj.length
  · by_cases hv : v < adj.length
    · exact h u hu v hv
    · have hv' := Nat.le_of_not_lt hv
      rw [key v u hv', adjacent_eq_false_of_le adj v u hv']
  · have hu' := Nat.le_of_not_lt hu
    rw [key u v hu', adjacent_eq_false_of_le adj u v hu']

theorem loop_free_of_bounded (adj : vertex_matrix)
    (h : ∀ v, v < adj.length → adjacent adj v v = false) : loop_free adj := by
  intro v
  by_cases hv : v < adj.length
  · exact h v hv
  · exact adjacent_eq_false_of_le adj v v (Nat.le_of_not_lt hv)

theorem Outcome.ends_in_mono (P R : SearchState → Prop) (h : ∀ s, P s → R s)
    (o : Outcome) (ho : o.ends_in P) : o.ends_in R := by
  cases o <;> exact h _ ho

theorem kite_symmetric : symmetric kite :=
  symmetric_of_bounded kite (by decide) (by decide)

theorem kite_loop_free : loop_free kite :=
  loop_free_of_bounded kite (by decide)

/-! ## Claims on the neighbour query and on the invariants -/

/-- C10: for a vertex `v < n` and any `start_index`, `get_connected(v,
start_index)` holds exactly the vertices `w` with `start_index <= w < n` and
`adjacency_matrix[v][w] > 0`, each once, in strictly increasing order. -/
theorem get_connected_exact (adjacency_matrix : vertex_matrix) (v start_index : vertex)
    (hv : v < adjacency_matrix.length) :
    (∀ w, w ∈ get_connected adjacency_matrix v start_index ↔
      start_index ≤ w ∧ w < adjacency_matrix.length ∧
        (adjacency_matrix.getD v []).getD w 0 > 0) ∧
    (get_connected adjacency_matrix v start_index).Nodup ∧
    (get_connected adjacency_matrix v start_index).Pairwise (· < ·) :=
  have _ := hv
  ⟨mem_get_connected adjacency_matrix v start_index,
   get_connected_nodup adjacency_matrix v start_index,
   get_connected_pairwise adjacency_matrix v start_index⟩

theorem get_connected_exact_witness :
    (3 < kite.length) ∧ get_connected kite 3 1 = [2, 4, 5] ∧
    ((∀ w, w ∈ get_connected kite 3 1 ↔
      1 ≤ w ∧ w < kite.length ∧ (kite.getD 3 []).getD w 0 > 0) ∧
    (get_connected kite 3 1).Nodup ∧
    (get_connected kite 3 1).Pairwise (· < ·)) :=
  ⟨by decide, by decide, get_connected_exact kite 3 1 (by decide)⟩

/-- C9: on a matrix with symmetric adjacency and no self-adjacency, every
clique value passed to `max_clique` in a run of the seed loop (the seeds and
the cliques built in the branch loop, whatever the seed order and the clock)
has pairwise adjacent vertices, candidates adjacent to every vertex, and no
vertex among its candidates; and the run ends by return or by time-out. -/
theorem calls_satisfy_partial_clique_inv (adjacency_matrix : vertex_matrix)
    (hsym : symmetric adjacency_matrix) (hloop : loop_free adjacency_matrix)
    (expired : Nat → Bool) (vertex_degrees : List (vertex × Nat)) :
    (search adjacency_matrix expired vertex_degrees).finished ∧
    (search adjacency_matrix expired vertex_degrees).ends_in
      (fun s => ∀ Q ∈ s.calls, partial_clique_inv adjacency_matrix Q) := by
  refine ⟨seed_loop_finished adjacency_matrix expired hloop vertex_degrees _, ?_⟩
  apply seed_loop_ends_in adjacency_matrix expired (partial_clique_inv adjacency_matrix)
  · exact fun Q c hQ hc => temp_q_inv adjacency_matrix hsym hloop Q c hQ hc
  · intro Q st hQ hst Q' hQ'
    simp only [List.mem_append, List.mem_singleton] at hQ'
    rcases hQ' with h | h
    · exact hst Q' h
    · exact h ▸ hQ
  · intro Q st _ hst _ _
    exact hst
  · intro st hst
    exact hst
  · exact fun e _ => seed_clique_inv adjacency_matrix hsym hloop e
  · intro Q hQ
    simp [initial_state] at hQ

theorem calls_satisfy_partial_clique_inv_witness :
    symmetric kite ∧ loop_free kite ∧
    ((search kite never [(4, 4), (3, 3), (2, 2)]).finished ∧
     (search kite never [(4, 4), (3, 3), (2, 2)]).ends_in
      (fun s => ∀ Q ∈ s.calls, partial_clique_inv kite Q)) :=
  ⟨kite_symmetric, kite_loop_free,
   calls_satisfy_partial_clique_inv kite kite_symmetric kite_loop_free never
     [(4, 4), (3, 3), (2, 2)]⟩

/-- C2: on a matrix with symmetric adjacency and no self-adjacency, whatever
the seed order and the clock, the run of the seed loop ends by return or by
time-out, and in the state it ends in every two distinct positions of
`optimal_clique.m_vertices` hold distinct, adjacent vertices. -/
theorem optimal_clique_pairwise_adjacent (adjacency_matrix : vertex_matrix)
    (hsym : symmetric adjacency_matrix) (hloop : loop_free adjacency_matrix)
    (expired : Nat → Bool) (vertex_degrees : List (vertex × Nat)) :
    (search adjacency_matrix expired vertex_degrees).finished ∧
    (search adjacency_matrix expired vertex_degrees).ends_in
      (fun s => pairwise_adjacent adjacency_matrix s.optimal_clique.m_vertices) := by
  refine ⟨seed_loop_finished adjacency_matrix expired hloop vertex_degrees _, ?_⟩
  apply Outcome.ends_in_mono
    (fun s => partial_clique_inv adjacency_matrix s.optimal_clique ∧
      s.optimal_clique.m_vertices.Nodup)
  · exact fun s hs => pairwise_adjacent_of_inv adjacency_matrix _ hs.1 hs.2
  apply seed_loop_ends_in adjacency_matrix expired
    (fun Q => partial_clique_inv adjacency_matrix Q ∧ Q.m_vertices.Nodup)
  · exact fun Q c hQ hc => ⟨temp_q_inv adjacency_matrix hsym hloop Q c hQ.1 hc,
      temp_q_nodup adjacency_matrix Q c hQ.1 hQ.2 hc⟩
  · intro Q st _ hst
    exact hst
  · intro Q st hQ _ _ _
    exact hQ
  · intro st hst
    exact hst
  · exact fun e _ => ⟨seed_clique_inv adjacency_matrix hsym hloop e,
      seed_clique_nodup adjacency_matrix e⟩
  · refine ⟨⟨?_, ?_, ?_⟩, ?_⟩ <;> simp [initial_state]

theorem optimal_clique_pairwise_adjacent_witness :
    symmetric kite ∧ loop_free kite ∧
    ((search kite (fun k => decide (1 ≤ k)) [(3, 3), (4, 4)]).finished ∧
     (search kite (fun k => decide (1 ≤ k)) [(3, 3), (4, 4)]).ends_in
      (fun s => pairwise_adjacent kite s.optimal_clique.m_vertices)) :=
  ⟨kite_symmetric, kite_loop_free,
   optimal_clique_pairwise_adjacent kite kite_symmetric kite_loop_free
     (fun k => decide (1 ≤ k)) [(3, 3), (4, 4)]⟩

/-! ## History of the assignments to `optimal_clique` -/

theorem colors_nil (adj : vertex_matrix) : colors adj [] = 0 := by
  simp [colors]

theorem upper_bound_of_no_candidates (adj : vertex_matrix) (Q : clique)
    (h : Q.m_candidates.length = 0) : upper_bound adj Q = Q.m_vertices.length := by
  have h' : Q.m_candidates = [] := List.length_eq_zero.mp h
  simp [upper_bound, h', colors_nil]

theorem history_ok_refl (st : SearchState) : history_ok st st :=
  ⟨[], by simp, by simp, by simp, by simp⟩

theorem history_ok_assign (adj : vertex_matrix) (st0 st : SearchState) (Q : clique)
    (h : history_ok st0 st)
    (hub : st.optimal_clique.m_vertices.length < upper_bound adj Q)
    (hempty : Q.m_candidates.length = 0) :
    history_ok st0 { st with optimal_clique := Q, assigned := st.assigned ++ [Q] } := by
  obtain ⟨new, h1, h2, h3, h4⟩ := h
  rw [upper_bound_of_no_candidates adj Q hempty] at hub
  refine ⟨new ++ [Q], ?_, ?_, ?_, ?_⟩
  · simp [h1]
  · rw [← List.cons_append, List.chain'_append]
    refine ⟨h2, List.chain'_singleton Q, ?_⟩
    intro x hx y hy
    rw [h4] at hx
    simp only [Option.mem_def, Option.some.injEq, List.head?_cons] at hx hy
    subst hx hy
    exact hub
  · intro q hq
    simp only [List.mem_append, List.mem_singleton] at hq
    rcases hq with hq | hq
    · exact h3 q hq
    · subst hq
      exact List.length_eq_zero.mp hempty
  · rw [← List.cons_append, List.getLast?_append]
    simp

theorem size_le_of_chain (l : List clique) :
    ∀ a b : clique, List.Chain' smaller (a :: l) → (a :: l).getLast? = some b →
      a.m_vertices.length ≤ b.m_vertices.length := by
  induction l with
  | nil =>
    intro a b _ hlast
    simp at hlast
    subst hlast
    exact Nat.le_refl _
  | cons x rest ih =>
    intro a b hchain hlast
    rw [List.chain'_cons] at hchain
    have hlast' : (x :: rest).getLast? = some b := by
      rw [List.getLast?_cons_cons] at hlast
      exact hlast
    have := ih x b hchain.2 hlast'
    have h1 : a.m_vertices.length < x.m_vertices.length := hchain.1
    omega

theorem size_le_of_history_ok (st0 st : SearchState) (h : history_ok st0 st) :
    st0.optimal_clique.m_vertices.length ≤ st.optimal_clique.m_vertices.length := by
  obtain ⟨new, _, h2, _, h4⟩ := h
  exact size_le_of_chain new _ _ h2 h4

theorem max_clique_history (adj : vertex_matrix) (expired : Nat → Bool) (fuel : Nat)
    (Q : clique) (st : SearchState) :
    (max_clique adj expired fuel Q st).ends_in (history_ok st) := by
  apply max_clique_ends_in adj expired (fun _ => True) (history_ok st)
  · exact fun _ _ _ _ => trivial
  · exact fun _ _ _ h => h
  · exact fun Q' st' _ h hub hempty => history_ok_assign adj st st' Q' h hub hempty
  · exact fun _ h => h
  · trivial
  · exact history_ok_refl st

theorem seed_loop_history (adj : vertex_matrix) (expired : Nat → Bool)
    (seeds : List (vertex × Nat)) (st : SearchState) :
    (seed_loop adj expired seeds st).ends_in (history_ok st) := by
  apply seed_loop_ends_in adj expired (fun _ => True) (history_ok st)
  · exact fun _ _ _ _ => trivial
  · exact fun _ _ _ h => h
  · exact fun Q' st' _ h hub hempty => history_ok_assign adj st st' Q' h hub hempty
  · exact fun _ h => h
  · exact fun _ _ => trivial
  · exact history_ok_refl st

/-- C8: whatever the matrix, the clock and the fuel, from the state `st` in
which a `max_clique` call (or the seed loop) starts to the state it ends in,
the values assigned to `optimal_clique` are cliques without candidates whose
numbers of vertices increase strictly, the first above the size
`optimal_clique` had at `st`, `optimal_clique` ends as the last of them (or as
it was), and so its size has not decreased. -/
theorem optimal_clique_history (adjacency_matrix : vertex_matrix) (expired : Nat → Bool) :
    (∀ fuel Q st, (max_clique adjacency_matrix expired fuel Q st).ends_in
      (fun s => history_ok st s ∧
        st.optimal_clique.m_vertices.length ≤ s.optimal_clique.m_vertices.length)) ∧
    (∀ vertex_degrees st, (seed_loop adjacency_matrix expired vertex_degrees st).ends_in
      (fun s => history_ok st s ∧
        st.optimal_clique.m_vertices.length ≤ s.optimal_clique.m_vertices.length)) :=
  ⟨fun fuel Q st =>
    Outcome.ends_in_mono (history_ok st) _
      (fun s hs => ⟨hs, size_le_of_history_ok st s hs⟩) _
      (max_clique_history adjacency_matrix expired fuel Q st),
   fun vertex_degrees st =>
    Outcome.ends_in_mono (history_ok st) _
      (fun s hs => ⟨hs, size_le_of_history_ok st s hs⟩) _
      (seed_loop_history adjacency_matrix expired vertex_degrees st)⟩

/-! ## Where the program departs from the specification -/

/-- C1: on the six-vertex graph of `kite_lines`, which has symmetric adjacency,
no self-adjacency and the triangle `2, 3, 4` (clique number 3), the run with a
budget that never expires ends normally and reports a clique of size 2, for
the stable seed order and for every other order of the three seeds of
degree 1. -/
theorem kite_reports_two :
    symmetric kite ∧ loop_free kite ∧
    is_clique kite [2, 3, 4] = true ∧ clique_number kite = 3 ∧
    sort_by_degree (parse kite_lines).vertex_degrees_map
      = [(4, 4), (3, 3), (2, 2), (0, 1), (1, 1), (5, 1)] ∧
    reported_size (run_main kite_lines never) = some 2 ∧
    exit_status (run_main kite_lines never) = some 0 ∧
    (∀ tail ∈ [[(0, 1), (1, 1), (5, 1)], [(0, 1), (5, 1), (1, 1)], [(1, 1), (0, 1), (5, 1)],
        [(1, 1), (5, 1), (0, 1)], [(5, 1), (0, 1), (1, 1)], [(5, 1), (1, 1), (0, 1)]],
      reported_size (search kite never ([(4, 4), (3, 3), (2, 2)] ++ tail)) = some 2) :=
  ⟨kite_symmetric, kite_loop_free, by decide, by decide, by decide, by decide, by decide,
    by decide⟩

/-- C3: on the graph with the single edge `0 - 1` the seed loop passes
`Q = ([1], [0])` to `max_clique`; `upper_bound(Q)` is `1` although the clique
`1, 0` consists of the vertex of `Q` and one of its candidates, and
`colors([0])` is `0` although the candidate `0` alone is a clique. -/
theorem upper_bound_below_clique :
    symmetric edge_graph ∧ loop_free edge_graph ∧
    run_main edge_lines never = .returned
      { optimal_clique := { m_vertices := [0, 1], m_candidates := [] },
        checks := 1,
        calls := [{ m_vertices := [0], m_candidates := [1] },
                  { m_vertices := [0, 1], m_candidates := [] },
                  { m_vertices := [1], m_candidates := [0] }],
        assigned := [{ m_vertices := [0, 1], m_candidates := [] }] } ∧
    upper_bound edge_graph { m_vertices := [1], m_candidates := [0] } = 1 ∧
    is_clique edge_graph [1, 0] = true ∧
    colors edge_graph [0] = 0 ∧ is_clique edge_graph [0] = true :=
  ⟨symmetric_of_bounded edge_graph (by decide) (by decide),
   loop_free_of_bounded edge_graph (by decide),
   by decide, by decide, by decide, by decide, by decide⟩

/-- C4: on the graph with the single edge `0 - 1`, the colouring loop of
`colors([0])` gives vertex `0` the colour `1` and leaves the entry `(1, 0)`
that the lookup of its neighbour inserted; `colors([0])` returns `0`, not the
largest colour assigned, which is `1`. -/
theorem colors_not_max_color :
    coloring edge_graph [0] = [(0, 1), (1, 0)] ∧
    max_color_assigned edge_graph [0] = 1 ∧
    colors edge_graph [0] = 0 :=
  ⟨by decide, by decide, by decide⟩

/-- C5: on the graph with three vertices and the single edge `0 - 1`, the run
with a budget that never expires calls `max_clique` on the seeds of the
vertices `0` and `1` only; the seed of the isolated vertex `2` is never
passed. -/
theorem isolated_vertex_not_seeded :
    run_main isolated_lines never = .returned
      { optimal_clique := { m_vertices := [0, 1], m_candidates := [] },
        checks := 1,
        calls := [{ m_vertices := [0], m_candidates := [1] },
                  { m_vertices := [0, 1], m_candidates := [] },
                  { m_vertices := [1], m_candidates := [0] }],
        assigned := [{ m_vertices := [0, 1], m_candidates := [] }] } ∧
    (parse isolated_lines).adjacency_matrix.length = 3 ∧
    seed_clique (parse isolated_lines).adjacency_matrix (2, 0)
      = { m_vertices := [2], m_candidates := [] } ∧
    (∀ Q ∈ [({ m_vertices := [0], m_candidates := [1] } : clique),
            { m_vertices := [0, 1], m_candidates := [] },
            { m_vertices := [1], m_candidates := [0] }], Q.m_vertices ≠ [2]) :=
  ⟨by decide, by decide, by decide, by decide⟩

/-- C6: for every `k` and every clock, the run on the file with the line
`p col k 0` and no edge line has no seed at all: it returns at once with the
empty `optimal_clique`, and the size reported is `0`; the clique number of the
edgeless graph on one vertex is `1`. -/
theorem edgeless_reports_zero (k : Nat) (expired : Nat → Bool) :
    run_main [.p k] expired = .returned initial_state ∧
    reported_size (run_main [.p k] expired) = some 0 ∧
    clique_number (parse [.p 1]).adjacency_matrix = 1 := by
  refine ⟨?_, ?_, by decide⟩ <;>
    simp [run_main, parse, parse_line, sort_by_degree, search, seed_loop, reported_size,
      final_clique, initial_state]

/-! ## Runs that never time out -/

theorem branch_loop_is_returned (adj : vertex_matrix) (call : clique → SearchState → Outcome)
    (Q : clique) (cs : vertex_array)
    (hcall : ∀ c ∈ cs, ∀ st, (call (temp_q adj Q c) st).is_returned) :
    ∀ st, (branch_loop adj call Q cs st).is_returned := by
  induction cs with
  | nil => intro st; simp [branch_loop, Outcome.is_returned]
  | cons c rest ih =>
    intro st
    have h1 := hcall c (List.mem_cons_self _ _) st
    have ih' := ih (fun c' hc' => hcall c' (List.mem_cons_of_mem _ hc'))
    unfold branch_loop
    cases hres : call (temp_q adj Q c) st with
    | returned s' => exact ih' s'
    | out_of_time s' => rw [hres] at h1; exact h1
    | no_fuel s' => rw [hres] at h1; exact h1

theorem max_clique_is_returned (adj : vertex_matrix) (hloop : loop_free adj) :
    ∀ fuel Q st, Q.m_candidates.length < fuel →
      (max_clique adj never fuel Q st).is_returned := by
  intro fuel
  induction fuel with
  | zero => intro Q st h; omega
  | succ fuel ih =>
    intro Q st hlen
    unfold max_clique
    simp only []
    split
    · trivial
    · split
      · trivial
      · split
        · rename_i h
          simp [never] at h
        · apply branch_loop_is_returned
          intro c hc st'
          apply ih
          have := find_candidates_length_lt adj Q c hloop hc
          simp only [temp_q]
          omega

theorem seed_loop_is_returned (adj : vertex_matrix) (hloop : loop_free adj)
    (seeds : List (vertex × Nat)) :
    ∀ st, (seed_loop adj never seeds st).is_returned := by
  induction seeds with
  | nil => intro st; simp [seed_loop, Outcome.is_returned]
  | cons e rest ih =>
    intro st
    have h1 := max_clique_is_returned adj hloop (adj.length + 1) (seed_clique adj e) st
      (by
        have := get_connected_length_le adj e.1 0
        simp only [seed_clique]
        omega)
    unfold seed_loop
    cases hres : max_clique adj never (adj.length + 1) (seed_clique adj e) st with
    | returned s' => exact ih s'
    | out_of_time s' => rw [hres] at h1; exact h1
    | no_fuel s' => rw [hres] at h1; exact h1

theorem Outcome.exists_of_is_returned (o : Outcome) (h : o.is_returned) :
    ∃ s, o = .returned s := by
  cases o with
  | returned s => exact ⟨s, rfl⟩
  | out_of_time s => exact h.elim
  | no_fuel s => exact h.elim

/-! ## Lower bounds on the size of `optimal_clique` -/

theorem max_clique_size_ge (adj : vertex_matrix) (expired : Nat → Bool) (m : Nat)
    (fuel : Nat) (Q : clique) (st : SearchState)
    (h : m ≤ st.optimal_clique.m_vertices.length) :
    (max_clique adj expired fuel Q st).ends_in
      (fun s => m ≤ s.optimal_clique.m_vertices.length) :=
  Outcome.ends_in_mono (history_ok st) _
    (fun s hs => h.trans (size_le_of_history_ok st s hs)) _
    (max_clique_history adj expired fuel Q st)

theorem seed_loop_size_ge (adj : vertex_matrix) (expired : Nat → Bool) (m : Nat)
    (seeds : List (vertex × Nat)) (st : SearchState)
    (h : m ≤ st.optimal_clique.m_vertices.length) :
    (seed_loop adj expired seeds st).ends_in
      (fun s => m ≤ s.optimal_clique.m_vertices.length) :=
  Outcome.ends_in_mono (history_ok st) _
    (fun s hs => h.trans (size_le_of_history_ok st s hs)) _
    (seed_loop_history adj expired seeds st)

/-! ## The complete graph -/

theorem complete_symmetric (n : Nat) (adj : vertex_matrix) (hc : complete n adj) :
    symmetric adj := by
  obtain ⟨hlen, hrows, hadj⟩ := hc
  apply symmetric_of_bounded
  · intro row hrow
    rw [hrows row hrow, hlen]
  · intro u hu v hv
    rw [hlen] at hu hv
    rw [hadj u hu v hv, hadj v hv u hu]
    by_cases h : u = v
    · simp [h]
    · have h' : ¬ v = u := fun e => h e.symm
      simp [h, h']

theorem complete_loop_free (n : Nat) (adj : vertex_matrix) (hc : complete n adj) :
    loop_free adj := by
  obtain ⟨hlen, _, hadj⟩ := hc
  apply loop_free_of_bounded
  intro v hv
  rw [hlen] at hv
  rw [hadj v hv v hv]
  simp

theorem complete_seed_perm (n : Nat) (adj : vertex_matrix) (hc : complete n adj)
    (e : vertex × Nat) (he : e.1 < n) :
    ((seed_clique adj e).m_vertices ++ (seed_clique adj e).m_candidates).Perm
      (List.range n) := by
  obtain ⟨hlen, _, hadj⟩ := hc
  have hnd : (e.1 :: get_connected adj e.1 0).Nodup := by
    rw [List.nodup_cons]
    refine ⟨?_, get_connected_nodup adj e.1 0⟩
    intro hmem
    have h := ((mem_get_connected_zero adj e.1 e.1).mp hmem).2
    rw [hadj e.1 he e.1 he] at h
    simp at h
  simp only [seed_clique, List.singleton_append]
  rw [List.perm_ext_iff_of_nodup hnd (List.nodup_range n)]
  intro w
  simp only [List.mem_cons, List.mem_range, mem_get_connected_zero, hlen]
  constructor
  · rintro (h | h)
    · rw [h]; exact he
    · exact h.1
  · intro hw
    by_cases h : w = e.1
    · exact Or.inl h
    · right
      refine ⟨hw, ?_⟩
      rw [hadj e.1 he w hw]
      simpa using fun e' => h e'.symm

theorem complete_find_candidates (n : Nat) (adj : vertex_matrix) (hc : complete n adj)
    (Q : clique) (c : vertex)
    (hperm : (Q.m_vertices ++ Q.m_candidates).Perm (List.range n))
    (hcand : c ∈ Q.m_candidates) :
    find_candidates adj Q c = Q.m_candidates.erase c := by
  obtain ⟨hlen, _, hadj⟩ := hc
  have hlt : ∀ w ∈ Q.m_candidates, w < n := by
    intro w hw
    exact List.mem_range.mp (hperm.subset (List.mem_append_right _ hw))
  have hnd : Q.m_candidates.Nodup :=
    (List.nodup_append.mp (hperm.nodup_iff.mpr (List.nodup_range n))).2.1
  rw [find_candidates_eq_filter, List.Nodup.erase_eq_filter hnd]
  apply List.filter_congr
  intro w hw
  have hw' := hlt w hw
  have hc' := hlt c hcand
  by_cases h : w = c
  · subst h
    simp [mem_get_connected_zero, hadj w hw' w hw']
  · have h' : ¬ c = w := fun e => h e.symm
    simp [mem_get_connected_zero, hadj c hc' w hw', hlen, hw', h, h']

theorem complete_temp_q_perm (n : Nat) (adj : vertex_matrix) (hc : complete n adj)
    (Q : clique) (c : vertex)
    (hperm : (Q.m_vertices ++ Q.m_candidates).Perm (List.range n))
    (hcand : c ∈ Q.m_candidates) :
    ((temp_q adj Q c).m_vertices ++ (temp_q adj Q c).m_candidates).Perm (List.range n) := by
  simp only [temp_q]
  rw [complete_find_candidates n adj hc Q c hperm hcand, List.append_assoc,
    List.singleton_append]
  refine List.Perm.trans ?_ hperm
  exact List.Perm.append_left _ (List.perm_cons_erase hcand).symm

theorem upper_bound_pos (adj : vertex_matrix) (Q : clique) (h : Q.m_vertices ≠ []) :
    0 < upper_bound adj Q := by
  have : 0 < Q.m_vertices.length := List.length_pos.mpr h
  unfold upper_bound
  omega

/-- On the complete graph, a call that starts with an empty `optimal_clique`
on a clique whose vertices and candidates together list all vertices leaves an
`optimal_clique` with at least `n` vertices. -/
theorem complete_descent (n : Nat) (adj : vertex_matrix) (hc : complete n adj) :
    ∀ fuel Q st,
      (Q.m_vertices ++ Q.m_candidates).Perm (List.range n) →
      Q.m_vertices ≠ [] →
      Q.m_candidates.length < fuel →
      st.optimal_clique.m_vertices = [] →
      (max_clique adj never fuel Q st).ends_in
        (fun s => n ≤ s.optimal_clique.m_vertices.length) := by
  intro fuel
  induction fuel with
  | zero => intro Q st _ _ h; omega
  | succ fuel ih =>
    intro Q st hperm hne hlen hopt
    have hub := upper_bound_pos adj Q hne
    unfold max_clique
    simp only []
    split
    · rename_i hprune
      rw [hopt] at hprune
      simp only [List.length_nil] at hprune
      omega
    · split
      · rename_i hempty
        have hnil : Q.m_candidates = [] := List.length_eq_zero.mp hempty
        have hl := hperm.length_eq
        rw [hnil] at hl
        simp only [List.append_nil, List.length_range] at hl
        simp only [Outcome.ends_in]
        omega
      · split
        · rename_i h
          simp [never] at h
        · rename_i hnonempty _
          cases hcs : Q.m_candidates with
          | nil => rw [hcs] at hnonempty; simp at hnonempty
          | cons c rest =>
            have hcmem : c ∈ Q.m_candidates := by rw [hcs]; exact List.mem_cons_self _ _
            have hchild := ih (temp_q adj Q c)
              { optimal_clique := st.optimal_clique, checks := st.checks + 1,
                calls := st.calls ++ [Q], assigned := st.assigned }
              (complete_temp_q_perm n adj hc Q c hperm hcmem)
              (by simp [temp_q])
              (by
                have := find_candidates_length_lt adj Q c
                  (complete_loop_free n adj hc) hcmem
                simp only [temp_q]
                omega)
              hopt
            unfold branch_loop
            cases hres : max_clique adj never fuel (temp_q adj Q c)
                { optimal_clique := st.optimal_clique, checks := st.checks + 1,
                  calls := st.calls ++ [Q], assigned := st.assigned } with
            | returned s' =>
              rw [hres] at hchild
              apply branch_loop_ends_in
              · intro c' _ st' hst'
                exact max_clique_size_ge adj never n fuel _ st' hst'
              · exact hchild
            | out_of_time s' => rw [hres] at hchild; exact hchild
            | no_fuel s' => rw [hres] at hchild; exact hchild

/-- On any matrix with symmetric adjacency and no self-adjacency, whose seeds
are vertices below `n = adjacency_matrix.size()`, the vertices of
`optimal_clique` are distinct and below `n` wherever the run ends. -/
theorem optimal_clique_nodup_in_range (adj : vertex_matrix) (hsym : symmetric adj)
    (hloop : loop_free adj) (expired : Nat → Bool) (seeds : List (vertex × Nat))
    (hseeds : ∀ e ∈ seeds, e.1 < adj.length) (st : SearchState)
    (hst : st.optimal_clique.m_vertices.Nodup ∧
      ∀ a ∈ st.optimal_clique.m_vertices, a < adj.length) :
    (seed_loop adj expired seeds st).ends_in
      (fun s => s.optimal_clique.m_vertices.Nodup ∧
        ∀ a ∈ s.optimal_clique.m_vertices, a < adj.length) := by
  apply seed_loop_ends_in adj expired
    (fun Q => partial_clique_inv adj Q ∧ Q.m_vertices.Nodup ∧
      (∀ a ∈ Q.m_vertices, a < adj.length) ∧ (∀ a ∈ Q.m_candidates, a < adj.length))
  · intro Q c hQ hcand
    refine ⟨temp_q_inv adj hsym hloop Q c hQ.1 hcand, temp_q_nodup adj Q c hQ.1 hQ.2.1 hcand,
      ?_, ?_⟩
    · intro a ha
      simp only [temp_q, List.mem_append, List.mem_singleton] at ha
      rcases ha with ha | ha
      · exact hQ.2.2.1 a ha
      · rw [ha]; exact hQ.2.2.2 c hcand
    · intro a ha
      exact ((mem_find_candidates adj Q c a).mp ha).2.1
  · intro Q st' _ h
    exact h
  · intro Q st' hQ _ _ _
    exact ⟨hQ.2.1, hQ.2.2.1⟩
  · intro st' h
    exact h
  · intro e he
    refine ⟨seed_clique_inv adj hsym hloop e, seed_clique_nodup adj e, ?_, ?_⟩
    · intro a ha
      simp only [seed_clique, List.mem_singleton] at ha
      rw [ha]; exact hseeds e he
    · intro a ha
      exact ((mem_get_connected_zero adj e.1 a).mp ha).1
  · exact hst

/-- The search on the complete graph, for any non-empty list of seeds below
`n`, in any order. -/
theorem search_complete (n : Nat) (adj : vertex_matrix) (hc : complete n adj)
    (seeds : List (vertex × Nat)) (hne : seeds ≠ []) (hseeds : ∀ e ∈ seeds, e.1 < n) :
    ∃ s, search adj never seeds = .returned s ∧
      s.optimal_clique.m_vertices.length = n ∧
      s.optimal_clique.m_vertices.Perm (List.range n) := by
  have hsym := complete_symmetric n adj hc
  have hloop := complete_loop_free n adj hc
  have hlen : adj.length = n := hc.1
  obtain ⟨s, hs⟩ := Outcome.exists_of_is_returned _
    (seed_loop_is_returned adj hloop seeds initial_state)
  have hinv := optimal_clique_nodup_in_range adj hsym hloop never seeds
    (by rw [hlen]; exact hseeds) initial_state (by simp [initial_state])
  rw [hs, hlen] at hinv
  have hge : n ≤ s.optimal_clique.m_vertices.length := by
    cases seeds with
    | nil => exact absurd rfl hne
    | cons e rest =>
      have he : e.1 < n := hseeds e (List.mem_cons_self _ _)
      have h1 := complete_descent n adj hc (adj.length + 1) (seed_clique adj e) initial_state
        (complete_seed_perm n adj hc e he) (by simp [seed_clique])
        (by
          have := get_connected_length_le adj e.1 0
          simp only [seed_clique]
          omega)
        (by simp [initial_state])
      unfold seed_loop at hs
      cases hres : max_clique adj never (adj.length + 1) (seed_clique adj e) initial_state with
      | returned s1 =>
        rw [hres] at hs h1
        have h2 := seed_loop_size_ge adj never n rest s1 h1
        simp only [] at hs
        rw [hs] at h2
        exact h2
      | out_of_time s1 => rw [hres] at hs; cases hs
      | no_fuel s1 => rw [hres] at hs; cases hs
  have hsub : s.optimal_clique.m_vertices.Subperm (List.range n) :=
    List.subperm_of_subset hinv.1 (fun a ha => List.mem_range.mpr (hinv.2 a ha))
  have hperm : s.optimal_clique.m_vertices.Perm (List.range n) :=
    hsub.perm_of_length_le (by simpa using hge)
  refine ⟨s, hs, ?_, hperm⟩
  simpa using hperm.length_eq

/-! ## The parsing loop -/

theorem entry_set_row (adj : vertex_matrix) (i : vertex) (row : vertex_array) (x y : vertex) :
    entry (adj.set i row) x y =
      if x = i ∧ i < adj.length then row.getD y 0 else entry adj x y := by
  unfold entry
  simp only [List.getD_eq_getElem?_getD, List.getElem?_set]
  by_cases h : i = x
  · subst h
    by_cases h2 : i < adj.length
    · simp [h2]
    · have h3 : adj.length ≤ i := Nat.le_of_not_lt h2
      simp [h2, List.getElem?_eq_none h3]
  · have h' : ¬ x = i := fun e => h e.symm
    simp [h, h']

theorem getD_set (row : vertex_array) (j : vertex) (a : Nat) (y : vertex) :
    (row.set j a).getD y 0 = if y = j ∧ j < row.length then a else row.getD y 0 := by
  simp only [List.getD_eq_getElem?_getD, List.getElem?_set]
  by_cases h : j = y
  · subst h
    by_cases h2 : j < row.length
    · simp [h2]
    · have h3 : row.length ≤ j := Nat.le_of_not_lt h2
      simp [h2, List.getElem?_eq_none h3]
  · have h' : ¬ y = j := fun e => h e.symm
    simp [h, h']

theorem square_row_length (n : Nat) (adj : vertex_matrix) (hs : square n adj) (i : vertex)
    (hi : i < n) : (adj.getD i []).length = n := by
  have hi' : i < adj.length := by rw [hs.1]; exact hi
  rw [List.getD_eq_getElem _ _ hi']
  exact hs.2 _ (List.getElem_mem _)

theorem entry_incr_entry (n : Nat) (adj : vertex_matrix) (hs : square n adj)
    (i j x y : vertex) :
    entry (incr_entry adj i j) x y =
      if x = i ∧ y = j ∧ i < n ∧ j < n then (entry adj i j + 1) % word else entry adj x y := by
  unfold incr_entry
  rw [entry_set_row, getD_set, hs.1]
  by_cases hx : x = i
  · subst hx
    by_cases hi : x < n
    · rw [square_row_length n adj hs x hi]
      by_cases hy : y = j
      · subst hy
        by_cases hj : y < n
        · simp [hi, hj, entry]
        · simp [hi, hj, entry]
      · simp [hi, hy, entry]
    · simp [hi]
  · simp [hx]

theorem square_incr_entry (n : Nat) (adj : vertex_matrix) (hs : square n adj)
    (i j : vertex) : square n (incr_entry adj i j) := by
  unfold incr_entry
  refine ⟨by rw [List.length_set]; exact hs.1, ?_⟩
  intro row hrow
  by_cases hi : i < n
  · rcases List.mem_or_eq_of_mem_set hrow with h | h
    · exact hs.2 row h
    · rw [h, List.length_set]
      exact square_row_length n adj hs i hi
  · rw [List.set_eq_of_length_le (by rw [hs.1]; exact Nat.le_of_not_lt hi)] at hrow
    exact hs.2 row hrow

theorem square_replicate (n : Nat) : square n (List.replicate n (List.replicate n 0)) := by
  refine ⟨by simp, ?_⟩
  intro row hrow
  rw [List.eq_of_mem_replicate hrow]
  simp

theorem entry_replicate (n : Nat) (x y : vertex) :
    entry (List.replicate n (List.replicate n 0)) x y = 0 := by
  unfold entry
  simp only [List.getD_eq_getElem?_getD, List.getElem?_replicate]
  by_cases hx : x < n
  · simp only [hx, if_true, Option.getD_some, List.getElem?_replicate]
    by_cases hy : y < n <;> simp [hy]
  · simp [hx]

theorem mem_keys_map_index (m : std_map) (v k : vertex) :
    k ∈ keys (map_index m v) ↔ k = v ∨ k ∈ keys m := by
  induction m with
  | nil => simp [map_index, keys]
  | cons hd rest ih =>
    obtain ⟨k', x⟩ := hd
    unfold map_index
    by_cases h1 : v < k'
    · simp [h1, keys]
    · by_cases h2 : k' < v
      · simp only [h1, h2, if_true, if_false]
        simp only [keys, List.map_cons, List.mem_cons] at ih ⊢
        rw [ih]
        tauto
      · have h3 : k' = v := by unfold vertex at *; omega
        simp only [h1, h2, if_false]
        simp only [keys, List.map_cons, List.mem_cons]
        rw [h3]
        tauto

theorem mem_keys_map_assign (m : std_map) (v : vertex) (a : Nat) (k : vertex) :
    k ∈ keys (map_assign m v a) ↔ k = v ∨ k ∈ keys m := by
  induction m with
  | nil => simp [map_assign, keys]
  | cons hd rest ih =>
    obtain ⟨k', x⟩ := hd
    unfold map_assign
    by_cases h1 : v < k'
    · simp [h1, keys]
    · by_cases h2 : k' < v
      · simp only [h1, h2, if_true, if_false]
        simp only [keys, List.map_cons, List.mem_cons] at ih ⊢
        rw [ih]
        tauto
      · have h3 : k' = v := by unfold vertex at *; omega
        simp only [h1, h2, if_false]
        simp only [keys, List.map_cons, List.mem_cons]
        rw [h3]
        tauto

theorem mem_keys_map_incr (m : std_map) (v k : vertex) :
    k ∈ keys (map_incr m v) ↔ k = v ∨ k ∈ keys m := by
  unfold map_incr
  rw [mem_keys_map_assign, mem_keys_map_index]
  tauto

theorem parse_graph_lines_nil (n : Nat) :
    parse (graph_lines n []) =
      { adjacency_matrix := List.replicate n (List.replicate n 0),
        vertex_degrees_map := [] } := by
  simp [parse, graph_lines, parse_line, resize]

theorem parse_graph_lines_snoc (n : Nat) (es : List (Nat × Nat)) (l : Nat × Nat) :
    parse (graph_lines n (es ++ [l])) =
      parse_line (parse (graph_lines n es)) (.e l.1 l.2) := by
  simp [parse, graph_lines, List.foldl_append]

theorem hits_snoc (es : List (Nat × Nat)) (l : Nat × Nat) (x y : vertex) :
    hits (es ++ [l]) x y =
      hits es x y
        + (if vertex_of_id l.1 = x ∧ vertex_of_id l.2 = y then 1 else 0)
        + (if vertex_of_id l.2 = x ∧ vertex_of_id l.1 = y then 1 else 0) := by
  unfold hits
  simp only [List.countP_append, List.countP_cons, List.countP_nil, Nat.zero_add,
    decide_eq_true_eq]
  omega

theorem succ_mod_word (a : Nat) : (a % word + 1) % word = (a + 1) % word := by
  unfold word
  omega

/-- What the parsing loop has built after the `p` line and the edge lines of
`es`: a square matrix whose entry `[x][y]` is the number of increments the
lines made to it (modulo `2 ^ 64`), and a degree map whose keys are endpoints
of lines. -/
theorem parse_graph_lines (n : Nat) (es : List (Nat × Nat)) :
    square n (parse (graph_lines n es)).adjacency_matrix ∧
    (∀ x, x < n → ∀ y, y < n →
      entry (parse (graph_lines n es)).adjacency_matrix x y = hits es x y % word) ∧
    (∀ k ∈ keys (parse (graph_lines n es)).vertex_degrees_map,
      ∃ l ∈ es, k = vertex_of_id l.1 ∨ k = vertex_of_id l.2) ∧
    (es ≠ [] → (parse (graph_lines n es)).vertex_degrees_map ≠ []) := by
  induction es using List.reverseRecOn with
  | nil =>
    rw [parse_graph_lines_nil]
    refine ⟨square_replicate n, ?_, ?_, ?_⟩
    · intro x _ y _
      simp [entry_replicate, hits]
    · intro k hk
      simp [keys] at hk
    · intro h
      exact absurd rfl h
  | append_singleton es l ih =>
    obtain ⟨hsq, hentry, hkeys, _⟩ := ih
    rw [parse_graph_lines_snoc]
    simp only [parse_line]
    have hsq1 := square_incr_entry n _ hsq (vertex_of_id l.1) (vertex_of_id l.2)
    refine ⟨square_incr_entry n _ hsq1 _ _, ?_, ?_, ?_⟩
    · intro x hx y hy
      rw [entry_incr_entry n _ hsq1, entry_incr_entry n _ hsq, entry_incr_entry n _ hsq,
        hits_snoc]
      by_cases h1 : vertex_of_id l.1 = x ∧ vertex_of_id l.2 = y
      · obtain ⟨h1a, h1b⟩ := h1
        subst h1a h1b
        by_cases h2 : vertex_of_id l.2 = vertex_of_id l.1
        · simp only [h2, hx, and_self, if_true]
          rw [hentry _ hx _ hx]
          unfold word
          omega
        · have h2' : ¬ vertex_of_id l.1 = vertex_of_id l.2 := fun e => h2 e.symm
          simp only [h2, h2', hx, hy, and_self, and_true, and_false, false_and, if_true,
            if_false, Nat.add_zero]
          rw [hentry _ hx _ hy, succ_mod_word]
      · by_cases h2 : vertex_of_id l.2 = x ∧ vertex_of_id l.1 = y
        · obtain ⟨h2a, h2b⟩ := h2
          subst h2a h2b
          have h3 : ¬ vertex_of_id l.1 = vertex_of_id l.2 := fun e => h1 ⟨e, e.symm⟩
          have h3' : ¬ vertex_of_id l.2 = vertex_of_id l.1 := fun e => h3 e.symm
          simp only [h3, h3', hx, hy, and_self, and_true, and_false, false_and, if_true,
            if_false, Nat.add_zero]
          rw [hentry _ hx _ hy, succ_mod_word]
        · have e1 : ¬ (x = vertex_of_id l.2 ∧ y = vertex_of_id l.1 ∧
              vertex_of_id l.2 < n ∧ vertex_of_id l.1 < n) :=
            fun e => h2 ⟨e.1.symm, e.2.1.symm⟩
          have e2 : ¬ (x = vertex_of_id l.1 ∧ y = vertex_of_id l.2 ∧
              vertex_of_id l.1 < n ∧ vertex_of_id l.2 < n) :=
            fun e => h1 ⟨e.1.symm, e.2.1.symm⟩
          simp only [e1, e2, h1, h2, if_false, Nat.add_zero]
          exact hentry x hx y hy
    · intro k hk
      rw [mem_keys_map_incr, mem_keys_map_incr] at hk
      rcases hk with hk | hk | hk
      · exact ⟨l, by simp, Or.inr hk⟩
      · exact ⟨l, by simp, Or.inl hk⟩
      · obtain ⟨l', hl', h⟩ := hkeys k hk
        exact ⟨l', by simp [hl'], h⟩
    · intro _ hnil
      have hmem : vertex_of_id l.2 ∈
          keys (map_incr (map_incr (parse (graph_lines n es)).vertex_degrees_map
            (vertex_of_id l.1)) (vertex_of_id l.2)) := by
        rw [mem_keys_map_incr]
        exact Or.inl rfl
      rw [hnil] at hmem
      simp [keys] at hmem

theorem vertex_of_id_eq (a n : Nat) (h1 : 1 ≤ a) (h2 : a ≤ n) (hn : n < word) :
    vertex_of_id a = a - 1 := by
  unfold vertex_of_id
  unfold word vertex at *
  omega

theorem hits_eq_count (n : Nat) (hn : n < word) (es : List (Nat × Nat))
    (hrange : ∀ l ∈ es, 1 ≤ l.1 ∧ l.1 ≤ n ∧ 1 ≤ l.2 ∧ l.2 ≤ n ∧ l.1 ≠ l.2)
    (x y : vertex) :
    hits es x y = es.count (x + 1, y + 1) + es.count (y + 1, x + 1) := by
  have e1 : es.countP (fun l => decide (vertex_of_id l.1 = x ∧ vertex_of_id l.2 = y))
      = es.countP (fun l => l == (x + 1, y + 1)) := by
    apply List.countP_congr
    intro l hl
    obtain ⟨h1, h2, h3, h4, _⟩ := hrange l hl
    rw [vertex_of_id_eq l.1 n h1 h2 hn, vertex_of_id_eq l.2 n h3 h4 hn]
    obtain ⟨a, b⟩ := l
    simp only [decide_eq_true_eq, beq_iff_eq, Prod.mk.injEq]
    simp only [] at h1 h3
    unfold vertex at *
    omega
  have e2 : es.countP (fun l => decide (vertex_of_id l.2 = x ∧ vertex_of_id l.1 = y))
      = es.countP (fun l => l == (y + 1, x + 1)) := by
    apply List.countP_congr
    intro l hl
    obtain ⟨h1, h2, h3, h4, _⟩ := hrange l hl
    rw [vertex_of_id_eq l.1 n h1 h2 hn, vertex_of_id_eq l.2 n h3 h4 hn]
    obtain ⟨a, b⟩ := l
    simp only [decide_eq_true_eq, beq_iff_eq, Prod.mk.injEq]
    simp only [] at h1 h3
    unfold vertex at *
    omega
  unfold hits List.count
  rw [e1, e2]

theorem hits_diagonal (n : Nat) (hn : n < word) (es : List (Nat × Nat))
    (hrange : ∀ l ∈ es, 1 ≤ l.1 ∧ l.1 ≤ n ∧ 1 ≤ l.2 ∧ l.2 ≤ n ∧ l.1 ≠ l.2)
    (x : vertex) : hits es x x = 0 := by
  have key : ∀ l ∈ es, ¬ (vertex_of_id l.1 = x ∧ vertex_of_id l.2 = x) := by
    intro l hl h
    obtain ⟨h1, h2, h3, h4, h5⟩ := hrange l hl
    rw [vertex_of_id_eq l.1 n h1 h2 hn, vertex_of_id_eq l.2 n h3 h4 hn] at h
    unfold vertex at *
    omega
  unfold hits
  have e1 : es.countP (fun l => decide (vertex_of_id l.1 = x ∧ vertex_of_id l.2 = x)) = 0 := by
    rw [List.countP_eq_zero]
    intro l hl
    simpa using key l hl
  have e2 : es.countP (fun l => decide (vertex_of_id l.2 = x ∧ vertex_of_id l.1 = x)) = 0 := by
    rw [List.countP_eq_zero]
    intro l hl
    have hk := key l hl
    simp only [decide_eq_true_eq]
    exact fun h => hk ⟨h.2, h.1⟩
  rw [e1, e2]

theorem one_mod_word : 1 % word = 1 := by
  unfold word
  omega

theorem parse_complete (n : Nat) (hn : n < word) (es : List (Nat × Nat))
    (hes : complete_edge_list n es) :
    complete n (parse (graph_lines n es)).adjacency_matrix := by
  obtain ⟨hsq, hentry, _, _⟩ := parse_graph_lines n es
  refine ⟨hsq.1, hsq.2, ?_⟩
  intro u hu v hv
  have hadj : adjacent (parse (graph_lines n es)).adjacency_matrix u v
      = decide (entry (parse (graph_lines n es)).adjacency_matrix u v > 0) := rfl
  rw [hadj, hentry u hu v hv]
  by_cases h : u = v
  · subst h
    rw [hits_diagonal n hn es hes.1]
    simp
  · rw [hits_eq_count n hn es hes.1, hes.2 u hu v hv h, one_mod_word]
    simp [h]

theorem parse_degrees_in_range (n : Nat) (hn : n < word) (es : List (Nat × Nat))
    (hrange : ∀ l ∈ es, 1 ≤ l.1 ∧ l.1 ≤ n ∧ 1 ≤ l.2 ∧ l.2 ≤ n ∧ l.1 ≠ l.2) :
    ∀ e ∈ (parse (graph_lines n es)).vertex_degrees_map, e.1 < n := by
  obtain ⟨_, _, hkeys, _⟩ := parse_graph_lines n es
  intro e he
  obtain ⟨l, hl, h⟩ := hkeys e.1 (List.mem_map_of_mem Prod.fst he)
  obtain ⟨h1, h2, h3, h4, _⟩ := hrange l hl
  rw [vertex_of_id_eq l.1 n h1 h2 hn, vertex_of_id_eq l.2 n h3 h4 hn] at h
  unfold vertex at *
  omega

theorem complete_edge_list_ne_nil (n : Nat) (hn : 2 ≤ n) (es : List (Nat × Nat))
    (hes : complete_edge_list n es) : es ≠ [] := by
  intro h
  have := hes.2 0 (by omega) 1 (by omega) (by omega)
  rw [h] at this
  simp at this

theorem sort_insert_perm (x : vertex × Nat) (l : List (vertex × Nat)) :
    (sort_insert x l).Perm (x :: l) := by
  induction l with
  | nil => simp [sort_insert]
  | cons y rest ih =>
    unfold sort_insert
    split
    · exact List.Perm.refl _
    · exact (List.Perm.cons y ih).trans (List.Perm.swap x y rest)

theorem sort_fold_perm (l : List (vertex × Nat)) :
    ∀ sorted : List (vertex × Nat),
      (l.foldl (fun sorted x => sort_insert x sorted) sorted).Perm (l ++ sorted) := by
  induction l with
  | nil => intro sorted; simp
  | cons x rest ih =>
    intro sorted
    simp only [List.foldl_cons, List.cons_append]
    refine (ih _).trans ?_
    refine (List.Perm.append_left rest (sort_insert_perm x sorted)).trans ?_
    exact List.perm_middle

theorem sort_by_degree_perm (l : List (vertex × Nat)) : (sort_by_degree l).Perm l := by
  have := sort_fold_perm l []
  simpa [sort_by_degree] using this

/-! ## The complete graph as input -/

/-- C7: for `2 <= n < 2 ^ 64` and every edge list of the complete graph on
the ids `1 .. n` (each pair of ids joined by exactly one line), the search
with a budget that never expires returns normally, for every order in which
the seeds are visited and for the order `main` uses, with an `optimal_clique`
of `n` vertices that lists every vertex `0 .. n-1` exactly once. -/
theorem complete_graph_reports_all (n : Nat) (hn : 2 ≤ n) (hword : n < word)
    (es : List (Nat × Nat)) (hes : complete_edge_list n es) :
    (∀ vertex_degrees : List (vertex × Nat),
      vertex_degrees.Perm (parse (graph_lines n es)).vertex_degrees_map →
      ∃ s, search (parse (graph_lines n es)).adjacency_matrix never vertex_degrees
          = .returned s ∧
        s.optimal_clique.m_vertices.length = n ∧
        s.optimal_clique.m_vertices.Perm (List.range n)) ∧
    (∃ s, run_main (graph_lines n es) never = .returned s ∧
      s.optimal_clique.m_vertices.length = n ∧
      s.optimal_clique.m_vertices.Perm (List.range n)) := by
  have hc := parse_complete n hword es hes
  have hrange := parse_degrees_in_range n hword es hes.1
  have hne : (parse (graph_lines n es)).vertex_degrees_map ≠ [] :=
    (parse_graph_lines n es).2.2.2 (complete_edge_list_ne_nil n hn es hes)
  have main : ∀ vertex_degrees : List (vertex × Nat),
      vertex_degrees.Perm (parse (graph_lines n es)).vertex_degrees_map →
      ∃ s, search (parse (graph_lines n es)).adjacency_matrix never vertex_degrees
          = .returned s ∧
        s.optimal_clique.m_vertices.length = n ∧
        s.optimal_clique.m_vertices.Perm (List.range n) := by
    intro seeds hperm
    apply search_complete n _ hc seeds
    · intro h
      rw [h] at hperm
      exact hne hperm.symm.eq_nil
    · intro e he
      exact hrange e (hperm.subset he)
  exact ⟨main, main _ (sort_by_degree_perm _)⟩

theorem complete_graph_reports_all_witness :
    2 ≤ 5 ∧ 5 < word ∧ complete_edge_list 5 k5_edges ∧
    reported_size (run_main (graph_lines 5 k5_edges) never) = some 5 ∧
    ((∀ vertex_degrees : List (vertex × Nat),
      vertex_degrees.Perm (parse (graph_lines 5 k5_edges)).vertex_degrees_map →
      ∃ s, search (parse (graph_lines 5 k5_edges)).adjacency_matrix never vertex_degrees
          = .returned s ∧
        s.optimal_clique.m_vertices.length = 5 ∧
        s.optimal_clique.m_vertices.Perm (List.range 5)) ∧
    (∃ s, run_main (graph_lines 5 k5_edges) never = .returned s ∧
      s.optimal_clique.m_vertices.length = 5 ∧
      s.optimal_clique.m_vertices.Perm (List.range 5))) :=
  ⟨by decide, by decide, by unfold complete_edge_list; decide, by decide,
    complete_graph_reports_all 5 (by decide) (by decide) k5_edges
      (by unfold complete_edge_list; decide)⟩

/-! ## The colour loop stops by itself -/

theorem color_loop_not_mem_of_fuel (ncs : List Nat) :
    ∀ fuel c, (ncs.filter (fun x => decide (c ≤ x))).length ≤ fuel →
      color_loop ncs fuel c ∉ ncs := by
  intro fuel
  induction fuel with
  | zero =>
    intro c h hmem
    simp only [color_loop] at hmem
    have hin : c ∈ ncs.filter (fun x => decide (c ≤ x)) := by
      simp [List.mem_filter, hmem]
    have hnil : ncs.filter (fun x => decide (c ≤ x)) = [] :=
      List.length_eq_zero.mp (Nat.le_zero.mp h)
    rw [hnil] at hin
    simp at hin
  | succ fuel ih =>
    intro c h
    unfold color_loop
    split
    · rename_i hc
      apply ih
      have hsub : ncs.filter (fun x => decide (c + 1 ≤ x))
          = (ncs.filter (fun x => decide (c ≤ x))).filter (fun x => decide (x ≠ c)) := by
        rw [List.filter_filter]
        apply List.filter_congr
        intro x _
        rw [Bool.eq_iff_iff]
        simp only [decide_eq_true_eq, Bool.and_eq_true, ne_eq, decide_not,
          Bool.not_eq_true', decide_eq_false_iff_not]
        omega
      have hlt : ((ncs.filter (fun x => decide (c ≤ x))).filter
          (fun x => decide (x ≠ c))).length
          < (ncs.filter (fun x => decide (c ≤ x))).length := by
        apply List.length_filter_lt_length_iff_exists.mpr
        exact ⟨c, by simp [List.mem_filter, hc], by simp⟩
      rw [hsub]
      omega
    · rename_i hc
      exact hc

/-- The colour chosen for a vertex is not a colour of its neighbours: the fuel
`neighbour_colors.length` given to `color_loop` is never used up. -/
theorem color_loop_not_mem (ncs : List Nat) : color_loop ncs ncs.length 1 ∉ ncs :=
  color_loop_not_mem_of_fuel ncs ncs.length 1 (List.length_filter_le _ _)

theorem color_loop_ge (ncs : List Nat) : ∀ fuel c, c ≤ color_loop ncs fuel c := by
  intro fuel
  induction fuel with
  | zero => intro c; simp [color_loop]
  | succ fuel ih =>
    intro c
    unfold color_loop
    split
    · exact Nat.le_of_succ_le (ih (c + 1))
    · exact Nat.le_refl c

theorem color_loop_minimal (ncs : List Nat) :
    ∀ fuel c k, c ≤ k → k < color_loop ncs fuel c → k ∈ ncs := by
  intro fuel
  induction fuel with
  | zero =>
    intro c k h1 h2
    simp only [color_loop] at h2
    omega
  | succ fuel ih =>
    intro c k h1 h2
    unfold color_loop at h2
    split at h2
    · rename_i hc
      by_cases hk : k = c
      · rw [hk]; exact hc
      · exact ih (c + 1) k (by omega) h2
    · omega

/-! ## Claims on single steps of the search -/

/-- C11: for a vertex `c < n`, `find_candidates(clq, c)` is `clq.m_candidates`
filtered, in its order and with its multiplicities, to the members of
`get_connected(c)`, that is to the vertices `k < n` adjacent to `c`; so `c`
does not occur in it when `c` is not adjacent to itself. -/
theorem find_candidates_is_filter (adjacency_matrix : vertex_matrix) (clq : clique)
    (c : vertex) (hc : c < adjacency_matrix.length) :
    find_candidates adjacency_matrix clq c
      = clq.m_candidates.filter (fun k => decide (k ∈ get_connected adjacency_matrix c 0)) ∧
    find_candidates adjacency_matrix clq c
      = clq.m_candidates.filter
          (fun k => decide (k < adjacency_matrix.length) && adjacent adjacency_matrix c k) ∧
    (adjacent adjacency_matrix c c = false → c ∉ find_candidates adjacency_matrix clq c) := by
  have _ := hc
  refine ⟨find_candidates_eq_filter adjacency_matrix clq c, ?_, ?_⟩
  · rw [find_candidates_eq_filter]
    apply List.filter_congr
    intro k _
    rw [Bool.eq_iff_iff]
    simp [mem_get_connected_zero]
  · intro hself hmem
    have h := ((mem_find_candidates adjacency_matrix clq c c).mp hmem).2.2
    rw [hself] at h
    exact Bool.noConfusion h

theorem find_candidates_is_filter_witness :
    4 < kite.length ∧
    find_candidates kite { m_vertices := [3], m_candidates := [5, 2, 4, 2, 0] } 4 = [2, 2, 0] ∧
    (find_candidates kite { m_vertices := [3], m_candidates := [5, 2, 4, 2, 0] } 4
      = [5, 2, 4, 2, 0].filter (fun k => decide (k ∈ get_connected kite 4 0)) ∧
    find_candidates kite { m_vertices := [3], m_candidates := [5, 2, 4, 2, 0] } 4
      = [5, 2, 4, 2, 0].filter (fun k => decide (k < kite.length) && adjacent kite 4 k) ∧
    (adjacent kite 4 4 = false →
      4 ∉ find_candidates kite { m_vertices := [3], m_candidates := [5, 2, 4, 2, 0] } 4)) :=
  ⟨by decide, by decide,
    find_candidates_is_filter kite { m_vertices := [3], m_candidates := [5, 2, 4, 2, 0] } 4
      (by decide)⟩

/-- C17: whatever the clock says, a `max_clique` call on a `Q` with
`upper_bound(Q) <= |optimal_clique.m_vertices|` returns normally in a state
that differs from the one it started in only by the record of this call: same
`optimal_clique`, no assignment, no deadline test, no call on a child. -/
theorem prune_step (adjacency_matrix : vertex_matrix) (expired : Nat → Bool) (fuel : Nat)
    (Q : clique) (st : SearchState)
    (h : upper_bound adjacency_matrix Q ≤ st.optimal_clique.m_vertices.length) :
    max_clique adjacency_matrix expired (fuel + 1) Q st
      = .returned { optimal_clique := st.optimal_clique, checks := st.checks,
                    calls := st.calls ++ [Q], assigned := st.assigned } := by
  unfold max_clique
  simp [h]

theorem prune_step_witness :
    upper_bound kite { m_vertices := [3], m_candidates := [2, 4, 5] }
      ≤ ({ optimal_clique := { m_vertices := [4, 0], m_candidates := [] },
           checks := 1, calls := [], assigned := [] } : SearchState).optimal_clique.m_vertices.length ∧
    max_clique kite (fun _ => true) (0 + 1) { m_vertices := [3], m_candidates := [2, 4, 5] }
        { optimal_clique := { m_vertices := [4, 0], m_candidates := [] },
          checks := 1, calls := [], assigned := [] }
      = .returned { optimal_clique := { m_vertices := [4, 0], m_candidates := [] },
                    checks := 1,
                    calls := [] ++ [{ m_vertices := [3], m_candidates := [2, 4, 5] }],
                    assigned := [] } :=
  ⟨by decide, prune_step kite (fun _ => true) 0 { m_vertices := [3], m_candidates := [2, 4, 5] }
    { optimal_clique := { m_vertices := [4, 0], m_candidates := [] },
      checks := 1, calls := [], assigned := [] } (by decide)⟩

/-- C18: `colors` of the empty sequence is `0`; and whatever the clock says, a
`max_clique` call on a `Q` without candidates returns normally, with
`optimal_clique` set to `Q` when `Q` has more vertices than `optimal_clique`
had, and with `optimal_clique` unchanged otherwise; no deadline test is
made. -/
theorem terminal_step (adjacency_matrix : vertex_matrix) :
    colors adjacency_matrix [] = 0 ∧
    ∀ (expired : Nat → Bool) (fuel : Nat) (Q : clique) (st : SearchState),
      Q.m_candidates = [] →
      max_clique adjacency_matrix expired (fuel + 1) Q st
        = .returned
            (if st.optimal_clique.m_vertices.length < Q.m_vertices.length then
              { optimal_clique := Q, checks := st.checks,
                calls := st.calls ++ [Q], assigned := st.assigned ++ [Q] }
            else
              { optimal_clique := st.optimal_clique, checks := st.checks,
                calls := st.calls ++ [Q], assigned := st.assigned }) := by
  refine ⟨colors_nil adjacency_matrix, ?_⟩
  intro expired fuel Q st hQ
  have hub : upper_bound adjacency_matrix Q = Q.m_vertices.length :=
    upper_bound_of_no_candidates adjacency_matrix Q (by simp [hQ])
  unfold max_clique
  simp only [hub, hQ, List.length_nil, if_true]
  by_cases h : Q.m_vertices.length ≤ st.optimal_clique.m_vertices.length
  · have h' : ¬ st.optimal_clique.m_vertices.length < Q.m_vertices.length := by omega
    simp [h, h']
  · have h' : st.optimal_clique.m_vertices.length < Q.m_vertices.length := by omega
    simp [h, h']

theorem terminal_step_witness :
    ({ m_vertices := [4, 0], m_candidates := [] } : clique).m_candidates = [] ∧
    max_clique kite (fun _ => true) (0 + 1) { m_vertices := [4, 0], m_candidates := [] }
        initial_state
      = .returned { optimal_clique := { m_vertices := [4, 0], m_candidates := [] },
                    checks := 0,
                    calls := [{ m_vertices := [4, 0], m_candidates := [] }],
                    assigned := [{ m_vertices := [4, 0], m_candidates := [] }] } :=
  ⟨rfl, (terminal_step kite).2 (fun _ => true) 0 { m_vertices := [4, 0], m_candidates := [] }
    initial_state rfl⟩

/-! ## Time-outs -/

theorem branch_loop_ends_with (adj : vertex_matrix) (call : clique → SearchState → Outcome)
    (Q : clique) (R T : SearchState → Prop) (cs : vertex_array)
    (hcall : ∀ c ∈ cs, ∀ st, R st → (call (temp_q adj Q c) st).ends_with R T) :
    ∀ st, R st → (branch_loop adj call Q cs st).ends_with R T := by
  induction cs with
  | nil => intro st hst; simpa [branch_loop, Outcome.ends_with] using hst
  | cons c rest ih =>
    intro st hst
    have h1 := hcall c (List.mem_cons_self _ _) st hst
    have ih' := ih (fun c' hc' => hcall c' (List.mem_cons_of_mem _ hc'))
    unfold branch_loop
    cases hres : call (temp_q adj Q c) st with
    | returned s' => rw [hres] at h1; exact ih' s' h1
    | out_of_time s' => rw [hres] at h1; exact h1
    | no_fuel s' => rw [hres] at h1; exact h1

/-- Rule for `max_clique` with separate conclusions for a return and for a
time-out. -/
theorem max_clique_ends_with (adj : vertex_matrix) (expired : Nat → Bool)
    (R T : SearchState → Prop)
    (hcall : ∀ Q st, R st → R { st with calls := st.calls ++ [Q] })
    (hassign : ∀ Q st, R st →
      R { st with optimal_clique := Q, assigned := st.assigned ++ [Q] })
    (hcheck : ∀ st, R st → expired st.checks = false →
      R { st with checks := st.checks + 1 })
    (hthrow : ∀ Q st, R st →
      ¬ upper_bound adj Q ≤ st.optimal_clique.m_vertices.length →
      Q.m_candidates ≠ [] → expired st.checks = true →
      T { optimal_clique := st.optimal_clique, checks := st.checks + 1,
          calls := st.calls ++ [Q], assigned := st.assigned }) :
    ∀ fuel Q st, R st → (max_clique adj expired fuel Q st).ends_with R T := by
  intro fuel
  induction fuel with
  | zero => intro Q st hst; exact hst
  | succ fuel ih =>
    intro Q st hst
    have h1 := hcall Q st hst
    unfold max_clique
    simp only []
    split
    · exact h1
    · rename_i hub
      split
      · exact hassign Q _ h1
      · rename_i hne
        split
        · rename_i hexp
          exact hthrow Q st hst hub (fun h => hne (by simp [h])) hexp
        · rename_i hexp
          apply branch_loop_ends_with
          · intro c _ st' hst'
            exact ih _ _ hst'
          · exact hcheck _ h1 (by simpa using hexp)

theorem seed_loop_ends_with (adj : vertex_matrix) (expired : Nat → Bool)
    (R T : SearchState → Prop)
    (hcall : ∀ Q st, R st → R { st with calls := st.calls ++ [Q] })
    (hassign : ∀ Q st, R st →
      R { st with optimal_clique := Q, assigned := st.assigned ++ [Q] })
    (hcheck : ∀ st, R st → expired st.checks = false →
      R { st with checks := st.checks + 1 })
    (hthrow : ∀ Q st, R st →
      ¬ upper_bound adj Q ≤ st.optimal_clique.m_vertices.length →
      Q.m_candidates ≠ [] → expired st.checks = true →
      T { optimal_clique := st.optimal_clique, checks := st.checks + 1,
          calls := st.calls ++ [Q], assigned := st.assigned })
    (seeds : List (vertex × Nat)) :
    ∀ st, R st → (seed_loop adj expired seeds st).ends_with R T := by
  induction seeds with
  | nil => intro st hst; simpa [seed_loop, Outcome.ends_with] using hst
  | cons e rest ih =>
    intro st hst
    have h1 := max_clique_ends_with adj expired R T hcall hassign hcheck hthrow
      (adj.length + 1) (seed_clique adj e) st hst
    unfold seed_loop
    cases hres : max_clique adj expired (adj.length + 1) (seed_clique adj e) st with
    | returned s' => rw [hres] at h1; exact ih s' h1
    | out_of_time s' => rw [hres] at h1; exact h1
    | no_fuel s' => rw [hres] at h1; exact h1

theorem seed_loop_raised (adj : vertex_matrix) (expired : Nat → Bool)
    (seeds : List (vertex × Nat)) (st : SearchState) (hst : no_check_fired expired st) :
    (seed_loop adj expired seeds st).ends_with (no_check_fired expired)
      (raised_at adj expired) := by
  apply seed_loop_ends_with adj expired
  · exact fun _ _ h => h
  · exact fun _ _ h => h
  · intro st' h hexp k hk
    simp only [] at hk
    by_cases hk' : k < st'.checks
    · exact h k hk'
    · have : k = st'.checks := by omega
      rw [this]; exact hexp
  · intro Q st' h hub hne hexp
    exact ⟨st', Q, h, hexp, hub, hne, rfl⟩
  · exact hst

/-! ## Termination and recursion depth -/

theorem length_le_of_nodup_lt (l : List vertex) (n : Nat) (hnd : l.Nodup)
    (hlt : ∀ a ∈ l, a < n) : l.length ≤ n := by
  have hsub : l.Subperm (List.range n) :=
    List.subperm_of_subset hnd (fun a ha => List.mem_range.mpr (hlt a ha))
  simpa using hsub.length_le

theorem seed_clique_fits (adj : vertex_matrix) (hloop : loop_free adj) (e : vertex × Nat)
    (he : e.1 < adj.length) :
    ((seed_clique adj e).m_vertices ++ (seed_clique adj e).m_candidates).Nodup ∧
    ∀ a ∈ (seed_clique adj e).m_vertices ++ (seed_clique adj e).m_candidates,
      a < adj.length := by
  simp only [seed_clique, List.singleton_append]
  constructor
  · rw [List.nodup_cons]
    refine ⟨?_, get_connected_nodup adj e.1 0⟩
    intro hmem
    have h := ((mem_get_connected_zero adj e.1 e.1).mp hmem).2
    rw [hloop] at h
    exact Bool.noConfusion h
  · intro a ha
    rcases List.mem_cons.mp ha with h | h
    · rw [h]; exact he
    · exact ((mem_get_connected_zero adj e.1 a).mp h).1

theorem temp_q_fits (adj : vertex_matrix) (hloop : loop_free adj) (Q : clique) (c : vertex)
    (hQ : (Q.m_vertices ++ Q.m_candidates).Nodup ∧
      ∀ a ∈ Q.m_vertices ++ Q.m_candidates, a < adj.length)
    (hc : c ∈ Q.m_candidates) :
    ((temp_q adj Q c).m_vertices ++ (temp_q adj Q c).m_candidates).Nodup ∧
    ∀ a ∈ (temp_q adj Q c).m_vertices ++ (temp_q adj Q c).m_candidates,
      a < adj.length := by
  obtain ⟨hnd, hlt⟩ := hQ
  obtain ⟨hv, hcs, hdisj⟩ := List.nodup_append.mp hnd
  have hcv : c ∉ Q.m_vertices := fun h => hdisj h hc
  have hcf : c ∉ find_candidates adj Q c := by
    intro hmem
    have h := ((mem_find_candidates adj Q c c).mp hmem).2.2
    rw [hloop] at h
    exact Bool.noConfusion h
  simp only [temp_q]
  constructor
  · rw [List.nodup_append]
    refine ⟨?_, ?_, ?_⟩
    · rw [List.nodup_append]
      refine ⟨hv, List.nodup_singleton c, ?_⟩
      intro a ha hb
      rw [List.mem_singleton.mp hb] at ha
      exact hcv ha
    · rw [find_candidates_eq_filter]
      exact hcs.filter _
    · intro a ha hb
      rcases List.mem_append.mp ha with h | h
      · exact hdisj h ((mem_find_candidates adj Q c a).mp hb).1
      · rw [List.mem_singleton.mp h] at hb
        exact hcf hb
  · intro a ha
    rcases List.mem_append.mp ha with h | h
    · rcases List.mem_append.mp h with h' | h'
      · exact hlt a (List.mem_append_left _ h')
      · rw [List.mem_singleton.mp h']
        exact hlt c (List.mem_append_right _ hc)
    · exact ((mem_find_candidates adj Q c a).mp h).2.1

theorem seed_candidates_lt (adj : vertex_matrix) (hloop : loop_free adj) (e : vertex × Nat)
    (he : e.1 < adj.length) : (seed_clique adj e).m_candidates.length < adj.length := by
  obtain ⟨hnd, hlt⟩ := seed_clique_fits adj hloop e he
  have := length_le_of_nodup_lt _ adj.length hnd hlt
  simp only [seed_clique, List.singleton_append, List.length_cons] at this ⊢
  omega

/-- C15: on a matrix with `n` rows, symmetric adjacency and no self-adjacency:
(1) a clique `temp_q` built in the branch loop of `max_clique(Q)` has fewer
candidates than `Q`, and its vertices and candidates together are not more
than those of `Q`; (2) for seeds below `n`, whatever their order and the
clock, the run ends by return or time-out and every clique passed to
`max_clique` has at most `n` vertices and candidates together; (3) the call
on a seed below `n` ends by return or time-out even when it is allowed a
nesting depth of `n` calls only, whatever the clock and the state. -/
theorem termination_and_depth (adjacency_matrix : vertex_matrix)
    (hsym : symmetric adjacency_matrix) (hloop : loop_free adjacency_matrix) :
    (∀ Q candidate, candidate ∈ Q.m_candidates →
      (temp_q adjacency_matrix Q candidate).m_candidates.length < Q.m_candidates.length ∧
      (temp_q adjacency_matrix Q candidate).m_vertices.length
          + (temp_q adjacency_matrix Q candidate).m_candidates.length
        ≤ Q.m_vertices.length + Q.m_candidates.length) ∧
    (∀ (expired : Nat → Bool) (vertex_degrees : List (vertex × Nat)),
      (∀ element ∈ vertex_degrees, element.1 < adjacency_matrix.length) →
      (search adjacency_matrix expired vertex_degrees).finished ∧
      (search adjacency_matrix expired vertex_degrees).ends_in
        (fun s => ∀ Q ∈ s.calls,
          Q.m_vertices.length + Q.m_candidates.length ≤ adjacency_matrix.length)) ∧
    (∀ (expired : Nat → Bool) (element : vertex × Nat) (st : SearchState),
      element.1 < adjacency_matrix.length →
      (max_clique adjacency_matrix expired adjacency_matrix.length
        (seed_clique adjacency_matrix element) st).finished) := by
  have _ := hsym
  refine ⟨?_, ?_, ?_⟩
  · intro Q c hc
    have h := find_candidates_length_lt adjacency_matrix Q c hloop hc
    simp only [temp_q, List.length_append, List.length_singleton]
    omega
  · intro expired seeds hseeds
    refine ⟨seed_loop_finished adjacency_matrix expired hloop seeds _, ?_⟩
    apply seed_loop_ends_in adjacency_matrix expired
      (fun Q => (Q.m_vertices ++ Q.m_candidates).Nodup ∧
        ∀ a ∈ Q.m_vertices ++ Q.m_candidates, a < adjacency_matrix.length)
    · exact fun Q c hQ hc => temp_q_fits adjacency_matrix hloop Q c hQ hc
    · intro Q st hQ hst Q' hQ'
      simp only [List.mem_append, List.mem_singleton] at hQ'
      rcases hQ' with h | h
      · exact hst Q' h
      · rw [h]
        have := length_le_of_nodup_lt _ adjacency_matrix.length hQ.1 hQ.2
        simpa using this
    · intro Q st _ hst _ _
      exact hst
    · intro st hst
      exact hst
    · exact fun e he => seed_clique_fits adjacency_matrix hloop e (hseeds e he)
    · intro Q hQ
      simp [initial_state] at hQ
  · intro expired e st he
    exact max_clique_finished adjacency_matrix expired hloop _ _ st
      (seed_candidates_lt adjacency_matrix hloop e he)

theorem termination_and_depth_witness :
    symmetric kite ∧ loop_free kite ∧
    ((3 : vertex) ∈ ({ m_vertices := [4], m_candidates := [0, 1, 2, 3] } : clique).m_candidates ∧
      (temp_q kite { m_vertices := [4], m_candidates := [0, 1, 2, 3] } 3).m_candidates.length
        < ({ m_vertices := [4], m_candidates := [0, 1, 2, 3] } : clique).m_candidates.length) ∧
    ((∀ element ∈ [((4 : vertex), 4), (3, 3), (2, 2)], element.1 < kite.length) ∧
      (search kite never [(4, 4), (3, 3), (2, 2)]).finished) ∧
    ((4 : vertex) < kite.length ∧
      (max_clique kite never kite.length (seed_clique kite (4, 4)) initial_state).finished) :=
  ⟨kite_symmetric, kite_loop_free,
   ⟨by decide,
    ((termination_and_depth kite kite_symmetric kite_loop_free).1
      { m_vertices := [4], m_candidates := [0, 1, 2, 3] } 3 (by decide)).1⟩,
   ⟨by decide,
    ((termination_and_depth kite kite_symmetric kite_loop_free).2.1 never
      [(4, 4), (3, 3), (2, 2)] (by decide)).1⟩,
   ⟨by decide,
    (termination_and_depth kite kite_symmetric kite_loop_free).2.2 never (4, 4)
      initial_state (by decide)⟩⟩

/-! ## Maps -/

theorem map_value_of_not_mem (m : std_map) (k : vertex) (h : k ∉ keys m) :
    map_value m k = 0 := by
  induction m with
  | nil => rfl
  | cons hd rest ih =>
    obtain ⟨k', x⟩ := hd
    simp only [keys, List.map_cons, List.mem_cons, not_or] at h
    unfold map_value
    have h1 : ¬ k' = k := fun e => h.1 e.symm
    simp only [h1, if_false]
    exact ih h.2

theorem map_value_pos_mem (m : std_map) (k : vertex) (h : 0 < map_value m k) :
    k ∈ keys m := by
  by_contra hk
  rw [map_value_of_not_mem m k hk] at h
  exact Nat.lt_irrefl 0 h

theorem map_sorted_nil : map_sorted [] := by
  simp [map_sorted, keys]

theorem map_sorted_cons (k : vertex) (x : Nat) (rest : std_map) :
    map_sorted ((k, x) :: rest) ↔ (∀ a ∈ keys rest, k < a) ∧ map_sorted rest := by
  simp only [map_sorted, keys, List.map_cons, List.pairwise_cons]

theorem map_sorted_index (m : std_map) (v : vertex) (h : map_sorted m) :
    map_sorted (map_index m v) := by
  induction m with
  | nil => simp [map_index, map_sorted, keys]
  | cons hd rest ih =>
    obtain ⟨k', x⟩ := hd
    have hs := (map_sorted_cons k' x rest).mp h
    unfold map_index
    by_cases h1 : v < k'
    · simp only [h1, if_true]
      rw [map_sorted_cons]
      refine ⟨?_, h⟩
      intro a ha
      simp only [keys, List.map_cons, List.mem_cons] at ha
      rcases ha with ha | ha
      · rw [ha]; exact h1
      · exact Nat.lt_trans h1 (hs.1 a ha)
    · by_cases h2 : k' < v
      · simp only [h1, h2, if_true, if_false]
        rw [map_sorted_cons]
        refine ⟨?_, ih hs.2⟩
        intro a ha
        rcases (mem_keys_map_index rest v a).mp ha with ha | ha
        · rw [ha]; exact h2
        · exact hs.1 a ha
      · simp only [h1, h2, if_false]
        exact h

theorem map_sorted_assign (m : std_map) (v : vertex) (c : Nat) (h : map_sorted m) :
    map_sorted (map_assign m v c) := by
  induction m with
  | nil => simp [map_assign, map_sorted, keys]
  | cons hd rest ih =>
    obtain ⟨k', x⟩ := hd
    have hs := (map_sorted_cons k' x rest).mp h
    unfold map_assign
    by_cases h1 : v < k'
    · simp only [h1, if_true]
      rw [map_sorted_cons]
      refine ⟨?_, h⟩
      intro a ha
      simp only [keys, List.map_cons, List.mem_cons] at ha
      rcases ha with ha | ha
      · rw [ha]; exact h1
      · exact Nat.lt_trans h1 (hs.1 a ha)
    · by_cases h2 : k' < v
      · simp only [h1, h2, if_true, if_false]
        rw [map_sorted_cons]
        refine ⟨?_, ih hs.2⟩
        intro a ha
        rcases (mem_keys_map_assign rest v c a).mp ha with ha | ha
        · rw [ha]; exact h2
        · exact hs.1 a ha
      · simp only [h1, h2, if_false]
        rw [map_sorted_cons]
        exact hs

theorem map_value_map_index (m : std_map) (v k : vertex) (h : map_sorted m) :
    map_value (map_index m v) k = map_value m k := by
  induction m with
  | nil =>
    simp only [map_index, map_value]
    split <;> rfl
  | cons hd rest ih =>
    obtain ⟨k', x⟩ := hd
    have hs := (map_sorted_cons k' x rest).mp h
    unfold map_index
    by_cases h1 : v < k'
    · simp only [h1, if_true]
      by_cases hk : v = k
      · subst hk
        have hnot : v ∉ keys ((k', x) :: rest) := by
          simp only [keys, List.map_cons, List.mem_cons, not_or]
          refine ⟨Nat.ne_of_lt h1, ?_⟩
          intro hmem
          have := hs.1 v hmem
          unfold vertex at *
          omega
        rw [map_value_of_not_mem _ v hnot]
        simp [map_value]
      · conv_lhs => unfold map_value
        simp only [hk, if_false]
    · by_cases h2 : k' < v
      · simp only [h1, h2, if_true, if_false]
        unfold map_value
        rw [ih hs.2]
      · simp only [h1, h2, if_false]

theorem map_value_map_assign (m : std_map) (v : vertex) (c : Nat) (k : vertex) :
    map_value (map_assign m v c) k = if k = v then c else map_value m k := by
  induction m with
  | nil =>
    simp only [map_assign, map_value]
    by_cases h : v = k
    · simp [h]
    · have h' : ¬ k = v := fun e => h e.symm
      simp [h, h']
  | cons hd rest ih =>
    obtain ⟨k', x⟩ := hd
    unfold map_assign
    by_cases h1 : v < k'
    · simp only [h1, if_true]
      conv_lhs => unfold map_value
      by_cases h : v = k
      · simp [h]
      · have h' : ¬ k = v := fun e => h e.symm
        simp only [h, h', if_false]
    · by_cases h2 : k' < v
      · simp only [h1, h2, if_true, if_false]
        unfold map_value
        rw [ih]
        by_cases h : k' = k
        · have h' : ¬ k = v := by unfold vertex at *; omega
          simp [h, h']
        · simp [h]
      · have h3 : k' = v := by unfold vertex at *; omega
        simp only [h1, h2, if_false]
        unfold map_value
        subst h3
        by_cases h : k' = k
        · simp [h]
        · have h' : ¬ k = k' := fun e => h e.symm
          simp [h, h']

/-! ## The colouring loop -/

theorem neighbour_colors_fold (m : std_map) (nbs : vertex_array) :
    ∀ (acc : std_map × List Nat), map_sorted acc.1 →
      (∀ k, map_value acc.1 k = map_value m k) →
      let r := nbs.foldl
        (fun acc neighbour =>
          (map_index acc.1 neighbour, acc.2 ++ [map_value acc.1 neighbour])) acc
      map_sorted r.1 ∧ (∀ k, map_value r.1 k = map_value m k) ∧
      (∀ k, k ∈ keys r.1 ↔ k ∈ nbs ∨ k ∈ keys acc.1) ∧
      r.2 = acc.2 ++ nbs.map (map_value m) := by
  induction nbs with
  | nil =>
    intro acc hs hv
    refine ⟨hs, hv, ?_, ?_⟩ <;> simp
  | cons b rest ih =>
    intro acc hs hv
    simp only [List.foldl_cons]
    have h := ih (map_index acc.1 b, acc.2 ++ [map_value acc.1 b])
      (map_sorted_index acc.1 b hs)
      (fun k => by simp only []; rw [map_value_map_index acc.1 b k hs]; exact hv k)
    simp only [] at h
    obtain ⟨h1, h2, h3, h4⟩ := h
    refine ⟨h1, h2, ?_, ?_⟩
    · intro k
      rw [h3, mem_keys_map_index, List.mem_cons]
      tauto
    · rw [h4, hv b]
      simp

theorem neighbour_colors_loop_spec (m : std_map) (hm : map_sorted m) (nbs : vertex_array) :
    map_sorted (neighbour_colors_loop nbs m).1 ∧
    (∀ k, map_value (neighbour_colors_loop nbs m).1 k = map_value m k) ∧
    (∀ k, k ∈ keys (neighbour_colors_loop nbs m).1 ↔ k ∈ nbs ∨ k ∈ keys m) ∧
    (neighbour_colors_loop nbs m).2 = nbs.map (map_value m) := by
  have h := neighbour_colors_fold m nbs (m, []) hm (fun _ => rfl)
  simp only [List.nil_append] at h
  exact h

/-- The colour a vertex gets in one iteration of the loop of `colors`, given
the map before the iteration. -/
theorem color_vertex_spec (adj : vertex_matrix) (m : std_map) (hm : map_sorted m)
    (v : vertex) :
    map_sorted (color_vertex adj m v) ∧
    (∀ k, k ∈ keys (color_vertex adj m v) ↔
      k = v ∨ k ∈ get_connected adj v 0 ∨ k ∈ keys m) ∧
    (∀ k, k ≠ v → map_value (color_vertex adj m v) k = map_value m k) ∧
    1 ≤ map_value (color_vertex adj m v) v ∧
    (∀ w ∈ get_connected adj v 0, map_value m w ≠ map_value (color_vertex adj m v) v) ∧
    (∀ c, 1 ≤ c → c < map_value (color_vertex adj m v) v →
      ∃ w ∈ get_connected adj v 0, map_value m w = c) := by
  obtain ⟨h1, h2, h3, h4⟩ := neighbour_colors_loop_spec m hm (get_connected adj v 0)
  have hval : map_value (color_vertex adj m v) v
      = color_loop ((get_connected adj v 0).map (map_value m))
          ((get_connected adj v 0).map (map_value m)).length 1 := by
    simp only [color_vertex]
    rw [map_value_map_assign, h4]
    simp
  refine ⟨map_sorted_assign _ v _ h1, ?_, ?_, ?_, ?_, ?_⟩
  · intro k
    simp only [color_vertex]
    rw [mem_keys_map_assign, h3]
  · intro k hk
    simp only [color_vertex]
    rw [map_value_map_assign]
    simp only [hk, if_false]
    exact h2 k
  · rw [hval]
    exact color_loop_ge _ _ 1
  · intro w hw heq
    have hnot := color_loop_not_mem ((get_connected adj v 0).map (map_value m))
    rw [← hval, ← heq] at hnot
    exact hnot (List.mem_map_of_mem _ hw)
  · intro c hc1 hc2
    rw [hval] at hc2
    have hmem := color_loop_minimal _ _ 1 c hc1 hc2
    obtain ⟨w, hw, hwc⟩ := List.mem_map.mp hmem
    exact ⟨w, hw, hwc⟩

theorem coloring_snoc (adj : vertex_matrix) (l : vertex_array) (v : vertex) :
    coloring adj (l ++ [v]) = color_vertex adj (coloring adj l) v := by
  simp [coloring, List.foldl_append]

theorem mem_touched_snoc (adj : vertex_matrix) (l : vertex_array) (v k : vertex) :
    k ∈ touched adj (l ++ [v]) ↔ k = v ∨ k ∈ get_connected adj v 0 ∨ k ∈ touched adj l := by
  simp only [touched, List.mem_append, List.mem_flatMap, List.mem_singleton]
  constructor
  · rintro ((h | h) | ⟨a, (ha | ha), hk⟩)
    · exact Or.inr (Or.inr (Or.inl h))
    · exact Or.inl h
    · exact Or.inr (Or.inr (Or.inr ⟨a, ha, hk⟩))
    · rw [ha] at hk; exact Or.inr (Or.inl hk)
  · rintro (h | h | (h | ⟨a, ha, hk⟩))
    · exact Or.inl (Or.inr h)
    · exact Or.inr ⟨v, Or.inr rfl, h⟩
    · exact Or.inl (Or.inl h)
    · exact Or.inr ⟨a, Or.inl ha, hk⟩

/-- The map at the end of the loop of `colors`: its keys are the touched
vertices, the vertices of the sequence have a colour `>= 1`, every other
entry is `0`. -/
theorem coloring_spec (adj : vertex_matrix) (l : vertex_array) :
    map_sorted (coloring adj l) ∧
    (∀ k, k ∈ keys (coloring adj l) ↔ k ∈ touched adj l) ∧
    (∀ k ∈ l, 1 ≤ map_value (coloring adj l) k) ∧
    (∀ k, k ∉ l → map_value (coloring adj l) k = 0) := by
  induction l using List.reverseRecOn with
  | nil =>
    refine ⟨map_sorted_nil, ?_, ?_, ?_⟩
    · intro k; simp [coloring, touched, keys]
    · intro k hk; simp at hk
    · intro k _; rfl
  | append_singleton l v ih =>
    obtain ⟨h1, h2, h3, h4⟩ := ih
    obtain ⟨c1, c2, c3, c4, _, _⟩ := color_vertex_spec adj (coloring adj l) h1 v
    rw [coloring_snoc]
    refine ⟨c1, ?_, ?_, ?_⟩
    · intro k
      rw [c2, mem_touched_snoc, h2]
    · intro k hk
      by_cases hkv : k = v
      · rw [hkv]; exact c4
      · rw [c3 k hkv]
        simp only [List.mem_append, List.mem_singleton] at hk
        rcases hk with hk | hk
        · exact h3 k hk
        · exact absurd hk hkv
    · intro k hk
      simp only [List.mem_append, List.mem_singleton, not_or] at hk
      rw [c3 k hk.2]
      exact h4 k hk.1

theorem adjacent_lt_of_symmetric (adj : vertex_matrix) (hsym : symmetric adj) (u w : vertex)
    (h : adjacent adj u w = true) : u < adj.length ∧ w < adj.length := by
  constructor
  · by_contra hu
    rw [adjacent_eq_false_of_le adj u w (Nat.le_of_not_lt hu)] at h
    exact Bool.noConfusion h
  · by_contra hw
    rw [hsym, adjacent_eq_false_of_le adj w u (Nat.le_of_not_lt hw)] at h
    exact Bool.noConfusion h

/-- Adjacent vertices never hold the same colour `>= 1`, at any moment of the
loop of `colors`. -/
theorem coloring_proper (adj : vertex_matrix) (hsym : symmetric adj) (hloop : loop_free adj)
    (l : vertex_array) :
    ∀ u w, adjacent adj u w = true →
      1 ≤ map_value (coloring adj l) u → 1 ≤ map_value (coloring adj l) w →
      map_value (coloring adj l) u ≠ map_value (coloring adj l) w := by
  induction l using List.reverseRecOn with
  | nil =>
    intro u w _ h
    simp [coloring, map_value] at h
  | append_singleton l v ih =>
    obtain ⟨h1, _, _, _⟩ := coloring_spec adj l
    obtain ⟨_, _, c3, _, c5, _⟩ := color_vertex_spec adj (coloring adj l) h1 v
    rw [coloring_snoc]
    intro u w hadj hu hw
    by_cases huv : u = v
    · by_cases hwv : w = v
      · rw [huv, hwv, hloop] at hadj
        exact Bool.noConfusion hadj
      · rw [c3 w hwv, huv]
        rw [huv] at hadj
        have hmem : w ∈ get_connected adj v 0 :=
          (mem_get_connected_zero adj v w).mpr
            ⟨(adjacent_lt_of_symmetric adj hsym v w hadj).2, hadj⟩
        exact fun e => c5 w hmem e.symm
    · by_cases hwv : w = v
      · rw [c3 u huv, hwv]
        rw [hwv, hsym] at hadj
        have hmem : u ∈ get_connected adj v 0 :=
          (mem_get_connected_zero adj v u).mpr
            ⟨(adjacent_lt_of_symmetric adj hsym v u hadj).2, hadj⟩
        exact c5 u hmem
      · rw [c3 u huv] at hu
        rw [c3 w hwv] at hw
        rw [c3 u huv, c3 w hwv]
        exact ih u w hadj hu hw

/-! ## What `colors` returns -/

theorem foldl_max_spec (l : vertex_array) :
    ∀ init : vertex, init ≤ l.foldl max init ∧ (∀ a ∈ l, a ≤ l.foldl max init) ∧
      (l.foldl max init = init ∨ l.foldl max init ∈ l) := by
  induction l with
  | nil => intro init; simp
  | cons x rest ih =>
    intro init
    obtain ⟨h1, h2, h3⟩ := ih (max init x)
    simp only [List.foldl_cons, List.mem_cons]
    refine ⟨Nat.le_trans (Nat.le_max_left init x) h1, ?_, ?_⟩
    · intro a ha
      rcases ha with ha | ha
      · rw [ha]; exact Nat.le_trans (Nat.le_max_right init x) h1
      · exact h2 a ha
    · rcases h3 with h3 | h3
      · rcases Nat.le_total init x with hle | hle
        · right; left
          rw [h3]; exact Nat.max_eq_right hle
        · left
          rw [h3]; exact Nat.max_eq_left hle
      · exact Or.inr (Or.inr h3)

theorem le_max_vertex (l : vertex_array) (a : vertex) (ha : a ∈ l) : a ≤ max_vertex l :=
  (foldl_max_spec l 0).2.1 a ha

theorem max_vertex_mem (l : vertex_array) (hne : l ≠ []) : max_vertex l ∈ l := by
  rcases (foldl_max_spec l 0).2.2 with h | h
  · cases l with
    | nil => exact absurd rfl hne
    | cons x rest =>
      have hx : x ≤ max_vertex (x :: rest) := le_max_vertex _ x (List.mem_cons_self _ _)
      have h0 : max_vertex (x :: rest) = 0 := h
      have : x = 0 := by unfold vertex at *; omega
      rw [h0, ← this]
      exact List.mem_cons_self _ _
  · exact h

theorem max_element_from_sorted (rest : std_map) :
    ∀ x : vertex × Nat, map_sorted (x :: rest) →
      some (max_element_from x rest) = (x :: rest).getLast? := by
  induction rest with
  | nil => intro x _; simp [max_element_from]
  | cons y rest ih =>
    intro x hs
    obtain ⟨k, a⟩ := x
    obtain ⟨k', b⟩ := y
    have hs' := (map_sorted_cons k a ((k', b) :: rest)).mp hs
    have hlt : k < k' := hs'.1 k' (by simp [keys])
    have hp : pair_lt (k, a) (k', b) = true := by simp [pair_lt, hlt]
    unfold max_element_from
    simp only [hp, if_true]
    rw [ih (k', b) hs'.2, List.getLast?_cons_cons]

theorem max_element_sorted (m : std_map) (hs : map_sorted m) :
    max_element m = m.getLast? := by
  cases m with
  | nil => rfl
  | cons x rest => exact max_element_from_sorted rest x hs

theorem sorted_last (m : std_map) :
    ∀ p : vertex × Nat, map_sorted m → m.getLast? = some p →
      p.1 ∈ keys m ∧ (∀ a ∈ keys m, a ≤ p.1) ∧ map_value m p.1 = p.2 := by
  induction m with
  | nil => intro p _ h; simp at h
  | cons x rest ih =>
    intro p hs hlast
    obtain ⟨k, a⟩ := x
    have hs' := (map_sorted_cons k a rest).mp hs
    cases rest with
    | nil =>
      simp only [List.getLast?_singleton, Option.some.injEq] at hlast
      subst hlast
      simp [keys, map_value]
    | cons y rest' =>
      rw [List.getLast?_cons_cons] at hlast
      obtain ⟨i1, i2, i3⟩ := ih p hs'.2 hlast
      have hk : k < p.1 := hs'.1 p.1 i1
      refine ⟨?_, ?_, ?_⟩
      · simp only [keys, List.map_cons, List.mem_cons] at i1 ⊢
        exact Or.inr i1
      · intro b hb
        simp only [keys, List.map_cons, List.mem_cons] at hb
        rcases hb with hb | hb
        · rw [hb]; exact Nat.le_of_lt hk
        · exact i2 b (by simpa [keys] using hb)
      · conv_lhs => unfold map_value
        have hne : ¬ k = p.1 := Nat.ne_of_lt hk
        simp only [hne, if_false]
        exact i3

/-- The value `colors` returns for a non-empty sequence, and the entry
`std::max_element` selects. -/
theorem colors_eq_value_of_max (adj : vertex_matrix) (l : vertex_array) (hne : l ≠ []) :
    max_element (coloring adj l)
      = some (max_vertex (touched adj l),
          map_value (coloring adj l) (max_vertex (touched adj l))) ∧
    colors adj l = map_value (coloring adj l) (max_vertex (touched adj l)) := by
  obtain ⟨h1, h2, _, _⟩ := coloring_spec adj l
  have htne : touched adj l ≠ [] := by
    intro h
    simp only [touched, List.append_eq_nil] at h
    exact hne h.1
  have hM := max_vertex_mem (touched adj l) htne
  have hkeys : max_vertex (touched adj l) ∈ keys (coloring adj l) := (h2 _).mpr hM
  cases hlast : (coloring adj l).getLast? with
  | none =>
    rw [List.getLast?_eq_none_iff] at hlast
    rw [hlast] at hkeys
    simp [keys] at hkeys
  | some p =>
    obtain ⟨i1, i2, i3⟩ := sorted_last (coloring adj l) p h1 hlast
    have hle1 : p.1 ≤ max_vertex (touched adj l) := le_max_vertex _ _ ((h2 _).mp i1)
    have hle2 : max_vertex (touched adj l) ≤ p.1 := i2 _ hkeys
    have heq : p.1 = max_vertex (touched adj l) := Nat.le_antisymm hle1 hle2
    have hp : p = (max_vertex (touched adj l),
        map_value (coloring adj l) (max_vertex (touched adj l))) := by
      rw [← heq, i3]
    have hmax : max_element (coloring adj l) = some p := by
      rw [max_element_sorted _ h1, hlast]
    have hlen : ¬ l.length ≤ 0 := by
      have := List.length_pos.mpr hne
      omega
    refine ⟨by rw [hmax, hp], ?_⟩
    unfold colors
    simp only [hlen, if_false]
    rw [hmax, hp]

/-- C20: for a non-empty candidate sequence, `std::max_element` selects the
map entry of the largest vertex id among the candidates and their neighbours
(the map is compared key first), so `colors(candidates)` is the value of that
entry: the colour (`>= 1`) of that vertex if it is a candidate, and `0` if it
is a neighbour that is no candidate, inserted by the neighbour lookup. -/
theorem colors_is_entry_of_largest_id (adjacency_matrix : vertex_matrix)
    (candidates : vertex_array) (hne : candidates ≠ []) :
    max_vertex (touched adjacency_matrix candidates) ∈ touched adjacency_matrix candidates ∧
    (∀ a ∈ touched adjacency_matrix candidates,
      a ≤ max_vertex (touched adjacency_matrix candidates)) ∧
    max_element (coloring adjacency_matrix candidates)
      = some (max_vertex (touched adjacency_matrix candidates),
          map_value (coloring adjacency_matrix candidates)
            (max_vertex (touched adjacency_matrix candidates))) ∧
    colors adjacency_matrix candidates
      = map_value (coloring adjacency_matrix candidates)
          (max_vertex (touched adjacency_matrix candidates)) ∧
    (max_vertex (touched adjacency_matrix candidates) ∈ candidates →
      1 ≤ colors adjacency_matrix candidates) ∧
    (max_vertex (touched adjacency_matrix candidates) ∉ candidates →
      colors adjacency_matrix candidates = 0) := by
  obtain ⟨_, _, h3, h4⟩ := coloring_spec adjacency_matrix candidates
  obtain ⟨e1, e2⟩ := colors_eq_value_of_max adjacency_matrix candidates hne
  have htne : touched adjacency_matrix candidates ≠ [] := by
    intro h
    simp only [touched, List.append_eq_nil] at h
    exact hne h.1
  refine ⟨max_vertex_mem _ htne, fun a ha => le_max_vertex _ a ha, e1, e2, ?_, ?_⟩
  · intro hmem
    rw [e2]
    exact h3 _ hmem
  · intro hmem
    rw [e2]
    exact h4 _ hmem

theorem colors_is_entry_of_largest_id_witness :
    ([0, 1, 2, 3] : vertex_array) ≠ [] ∧
    touched kite [0, 1, 2, 3] = [0, 1, 2, 3, 4, 4, 3, 4, 2, 4, 5] ∧
    coloring kite [0, 1, 2, 3] = [(0, 1), (1, 1), (2, 1), (3, 2), (4, 0), (5, 0)] ∧
    max_vertex (touched kite [0, 1, 2, 3]) = 5 ∧
    colors kite [0, 1, 2, 3] = 0 ∧
    (max_element (coloring kite [0, 1, 2, 3])
      = some (max_vertex (touched kite [0, 1, 2, 3]),
          map_value (coloring kite [0, 1, 2, 3]) (max_vertex (touched kite [0, 1, 2, 3]))) ∧
     colors kite [0, 1, 2, 3]
      = map_value (coloring kite [0, 1, 2, 3]) (max_vertex (touched kite [0, 1, 2, 3]))) :=
  ⟨by decide, by decide, by decide, by decide, by decide,
    (colors_is_entry_of_largest_id kite [0, 1, 2, 3] (by decide)).2.2.1,
    (colors_is_entry_of_largest_id kite [0, 1, 2, 3] (by decide)).2.2.2.1⟩

/-- C16: on a matrix with symmetric adjacency and no self-adjacency, at the
end of the loop of `colors(candidates)` every candidate has a colour `>= 1`
in the map and adjacent candidates have different colours; and in each
iteration the vertex `v` gets a colour `c >= 1` that no neighbour of `v`
holds in the map of that moment, while every colour from `1` to `c - 1` is
held by a neighbour. -/
theorem greedy_coloring_proper (adjacency_matrix : vertex_matrix)
    (hsym : symmetric adjacency_matrix) (hloop : loop_free adjacency_matrix)
    (candidates : vertex_array) :
    (∀ v ∈ candidates, 1 ≤ map_value (coloring adjacency_matrix candidates) v) ∧
    (∀ u ∈ candidates, ∀ w ∈ candidates, adjacent adjacency_matrix u w = true →
      map_value (coloring adjacency_matrix candidates) u
        ≠ map_value (coloring adjacency_matrix candidates) w) ∧
    (∀ (coloured : vertex_array) (v : vertex) (rest : vertex_array),
      candidates = coloured ++ v :: rest →
      1 ≤ map_value (coloring adjacency_matrix (coloured ++ [v])) v ∧
      (∀ w ∈ get_connected adjacency_matrix v 0,
        map_value (coloring adjacency_matrix coloured) w
          ≠ map_value (coloring adjacency_matrix (coloured ++ [v])) v) ∧
      (∀ c, 1 ≤ c → c < map_value (coloring adjacency_matrix (coloured ++ [v])) v →
        ∃ w ∈ get_connected adjacency_matrix v 0,
          map_value (coloring adjacency_matrix coloured) w = c)) := by
  obtain ⟨_, _, h3, _⟩ := coloring_spec adjacency_matrix candidates
  refine ⟨h3, ?_, ?_⟩
  · intro u hu w hw hadj
    exact coloring_proper adjacency_matrix hsym hloop candidates u w hadj (h3 u hu) (h3 w hw)
  · intro coloured v rest _
    obtain ⟨h1, _, _, _⟩ := coloring_spec adjacency_matrix coloured
    obtain ⟨_, _, _, c4, c5, c6⟩ :=
      color_vertex_spec adjacency_matrix (coloring adjacency_matrix coloured) h1 v
    rw [coloring_snoc]
    exact ⟨c4, c5, c6⟩

theorem greedy_coloring_proper_witness :
    symmetric kite ∧ loop_free kite ∧
    coloring kite [2, 3, 4] = [(0, 0), (1, 0), (2, 1), (3, 2), (4, 3), (5, 0)] ∧
    ((2 : vertex) ∈ ([2, 3, 4] : vertex_array) ∧ (3 : vertex) ∈ ([2, 3, 4] : vertex_array) ∧
      adjacent kite 2 3 = true ∧
      map_value (coloring kite [2, 3, 4]) 2 ≠ map_value (coloring kite [2, 3, 4]) 3) ∧
    (([2, 3, 4] : vertex_array) = [2, 3] ++ 4 :: [] ∧
      1 ≤ map_value (coloring kite ([2, 3] ++ [4])) 4) :=
  ⟨kite_symmetric, kite_loop_free, by decide,
   ⟨by decide, by decide, by decide,
    (greedy_coloring_proper kite kite_symmetric kite_loop_free [2, 3, 4]).2.1 2 (by decide) 3
      (by decide) (by decide)⟩,
   ⟨by decide,
    ((greedy_coloring_proper kite kite_symmetric kite_loop_free [2, 3, 4]).2.2 [2, 3] 4 []
      (by decide)).1⟩⟩

/-! ## The matrix and the degree map as functions of the edge lines -/

theorem hits_comm (es : List (Nat × Nat)) (x y : vertex) : hits es x y = hits es y x := by
  unfold hits
  have e1 : es.countP (fun l => decide (vertex_of_id l.1 = x ∧ vertex_of_id l.2 = y))
      = es.countP (fun l => decide (vertex_of_id l.2 = y ∧ vertex_of_id l.1 = x)) := by
    apply List.countP_congr
    intro l _
    simp only [decide_eq_true_eq]
    exact And.comm
  have e2 : es.countP (fun l => decide (vertex_of_id l.2 = x ∧ vertex_of_id l.1 = y))
      = es.countP (fun l => decide (vertex_of_id l.1 = y ∧ vertex_of_id l.2 = x)) := by
    apply List.countP_congr
    intro l _
    simp only [decide_eq_true_eq]
    exact And.comm
  rw [e1, e2, Nat.add_comm]

theorem square_ext (n : Nat) (A B : vertex_matrix) (hA : square n A) (hB : square n B)
    (h : ∀ x, x < n → ∀ y, y < n → entry A x y = entry B x y) : A = B := by
  apply List.ext_getElem (by rw [hA.1, hB.1])
  intro i h1 h2
  have hi : i < n := by rw [← hA.1]; exact h1
  have hrA : (A[i]).length = n := hA.2 _ (List.getElem_mem _)
  have hrB : (B[i]).length = n := hB.2 _ (List.getElem_mem _)
  apply List.ext_getElem (by rw [hrA, hrB])
  intro j h3 h4
  have hj : j < n := by rw [← hrA]; exact h3
  have := h i hi j hj
  unfold entry at this
  rw [List.getD_eq_getElem _ _ h1, List.getD_eq_getElem _ _ h2,
    List.getD_eq_getElem _ _ h3, List.getD_eq_getElem _ _ h4] at this
  exact this

theorem map_ext (m1 : std_map) :
    ∀ m2 : std_map, map_sorted m1 → map_sorted m2 →
      (∀ k, k ∈ keys m1 ↔ k ∈ keys m2) →
      (∀ k, map_value m1 k = map_value m2 k) → m1 = m2 := by
  induction m1 with
  | nil =>
    intro m2 _ _ hk _
    cases m2 with
    | nil => rfl
    | cons y rest =>
      have := (hk y.1).mpr (by simp [keys])
      simp [keys] at this
  | cons x r1 ih =>
    intro m2 hs1 hs2 hk hv
    obtain ⟨k1, v1⟩ := x
    cases m2 with
    | nil =>
      have := (hk k1).mp (by simp [keys])
      simp [keys] at this
    | cons y r2 =>
      obtain ⟨k2, v2⟩ := y
      have s1 := (map_sorted_cons k1 v1 r1).mp hs1
      have s2 := (map_sorted_cons k2 v2 r2).mp hs2
      have hk12 : k1 = k2 := by
        have a1 := (hk k1).mp (by simp [keys])
        have a2 := (hk k2).mpr (by simp [keys])
        simp only [keys, List.map_cons, List.mem_cons] at a1 a2
        rcases a1 with a1 | a1
        · exact a1
        · rcases a2 with a2 | a2
          · exact a2.symm
          · have b1 := s2.1 k1 a1
            have b2 := s1.1 k2 a2
            unfold vertex at *
            omega
      subst hk12
      have hv12 : v1 = v2 := by
        have := hv k1
        simpa [map_value] using this
      subst hv12
      have hr : r1 = r2 := by
        apply ih r2 s1.2 s2.2
        · intro k
          have hkk := hk k
          simp only [keys, List.map_cons, List.mem_cons] at hkk
          constructor
          · intro hmem
            have hlt := s1.1 k hmem
            rcases hkk.mp (Or.inr hmem) with h | h
            · unfold vertex at *; omega
            · exact h
          · intro hmem
            have hlt := s2.1 k hmem
            rcases hkk.mpr (Or.inr hmem) with h | h
            · unfold vertex at *; omega
            · exact h
        · intro k
          by_cases hkk : k1 = k
          · subst hkk
            rw [map_value_of_not_mem r1 k1 (fun hmem => Nat.lt_irrefl _ (s1.1 k1 hmem)),
              map_value_of_not_mem r2 k1 (fun hmem => Nat.lt_irrefl _ (s2.1 k1 hmem))]
          · have := hv k
            simpa [map_value, hkk] using this
      rw [hr]

theorem map_incr_spec (m : std_map) (hm : map_sorted m) (v : vertex) :
    map_sorted (map_incr m v) ∧
    (∀ k, k ∈ keys (map_incr m v) ↔ k = v ∨ k ∈ keys m) ∧
    (∀ k, map_value (map_incr m v) k
      = if k = v then (map_value m v + 1) % word else map_value m k) := by
  refine ⟨?_, mem_keys_map_incr m v, ?_⟩
  · unfold map_incr
    exact map_sorted_assign _ _ _ (map_sorted_index m v hm)
  · intro k
    unfold map_incr
    rw [map_value_map_assign, map_value_map_index m v k hm]

theorem occurrences_snoc (es : List (Nat × Nat)) (l : Nat × Nat) (k : vertex) :
    occurrences (es ++ [l]) k =
      occurrences es k + (if vertex_of_id l.1 = k then 1 else 0)
        + (if vertex_of_id l.2 = k then 1 else 0) := by
  unfold occurrences
  simp only [List.countP_append, List.countP_cons, List.countP_nil, Nat.zero_add,
    decide_eq_true_eq]
  omega

/-- The degree map after the `p` line and the edge lines of `es`: sorted, with
a key for every vertex named by a line, holding the number of times it is
named (modulo `2 ^ 64`). -/
theorem parse_degrees (n : Nat) (es : List (Nat × Nat)) :
    map_sorted (parse (graph_lines n es)).vertex_degrees_map ∧
    (∀ k, k ∈ keys (parse (graph_lines n es)).vertex_degrees_map ↔ 0 < occurrences es k) ∧
    (∀ k, map_value (parse (graph_lines n es)).vertex_degrees_map k
      = occurrences es k % word) := by
  induction es using List.reverseRecOn with
  | nil =>
    rw [parse_graph_lines_nil]
    refine ⟨map_sorted_nil, ?_, ?_⟩
    · intro k; simp [keys, occurrences]
    · intro k; simp [map_value, occurrences]
  | append_singleton es l ih =>
    obtain ⟨h1, h2, h3⟩ := ih
    rw [parse_graph_lines_snoc]
    simp only [parse_line]
    obtain ⟨a1, a2, a3⟩ := map_incr_spec _ h1 (vertex_of_id l.1)
    obtain ⟨b1, b2, b3⟩ := map_incr_spec _ a1 (vertex_of_id l.2)
    refine ⟨b1, ?_, ?_⟩
    · intro k
      rw [b2, a2, h2, occurrences_snoc]
      by_cases e1 : vertex_of_id l.1 = k <;> by_cases e2 : vertex_of_id l.2 = k
      · simp [e1, e2]
      · have e2' : ¬ k = vertex_of_id l.2 := fun e => e2 e.symm
        simp [e1, e2, e2']
      · have e1' : ¬ k = vertex_of_id l.1 := fun e => e1 e.symm
        simp [e1, e2, e1']
      · have e1' : ¬ k = vertex_of_id l.1 := fun e => e1 e.symm
        have e2' : ¬ k = vertex_of_id l.2 := fun e => e2 e.symm
        simp [e1, e2, e1', e2']
    · intro k
      rw [occurrences_snoc]
      simp only [b3, a3, h3]
      generalize vertex_of_id l.1 = a
      generalize vertex_of_id l.2 = b
      unfold word vertex at *
      split_ifs <;> subst_vars <;> omega

theorem hits_cons (a : Nat × Nat) (es : List (Nat × Nat)) (x y : vertex) :
    hits (a :: es) x y =
      hits es x y
        + (if vertex_of_id a.1 = x ∧ vertex_of_id a.2 = y then 1 else 0)
        + (if vertex_of_id a.2 = x ∧ vertex_of_id a.1 = y then 1 else 0) := by
  unfold hits
  simp only [List.countP_cons, decide_eq_true_eq]
  omega

theorem occurrences_cons (a : Nat × Nat) (es : List (Nat × Nat)) (k : vertex) :
    occurrences (a :: es) k =
      occurrences es k + (if vertex_of_id a.1 = k then 1 else 0)
        + (if vertex_of_id a.2 = k then 1 else 0) := by
  unfold occurrences
  simp only [List.countP_cons, decide_eq_true_eq]
  omega

theorem hits_same_edge (es mid : List (Nat × Nat)) (h : List.Forall₂ same_edge es mid)
    (x y : vertex) : hits es x y = hits mid x y := by
  induction h with
  | nil => rfl
  | cons hab _ ih =>
    rw [hits_cons, hits_cons, ih]
    rcases hab with hab | hab
    · rw [hab]
    · rw [hab]
      simp only []
      omega

theorem occurrences_same_edge (es mid : List (Nat × Nat))
    (h : List.Forall₂ same_edge es mid) (k : vertex) :
    occurrences es k = occurrences mid k := by
  induction h with
  | nil => rfl
  | cons hab _ ih =>
    rw [occurrences_cons, occurrences_cons, ih]
    rcases hab with hab | hab
    · rw [hab]
    · rw [hab]
      simp only []
      omega

theorem hits_reordered (es es' : List (Nat × Nat)) (h : reordered es es') (x y : vertex) :
    hits es x y = hits es' x y := by
  obtain ⟨mid, h1, h2⟩ := h
  rw [hits_same_edge es mid h1]
  unfold hits
  rw [h2.countP_eq, h2.countP_eq]

theorem occurrences_reordered (es es' : List (Nat × Nat)) (h : reordered es es')
    (k : vertex) : occurrences es k = occurrences es' k := by
  obtain ⟨mid, h1, h2⟩ := h
  rw [occurrences_same_edge es mid h1]
  unfold occurrences
  rw [h2.countP_eq, h2.countP_eq]

theorem parse_reordered (n : Nat) (es es' : List (Nat × Nat)) (h : reordered es es') :
    parse (graph_lines n es) = parse (graph_lines n es') := by
  obtain ⟨sq1, en1, _, _⟩ := parse_graph_lines n es
  obtain ⟨sq2, en2, _, _⟩ := parse_graph_lines n es'
  obtain ⟨d1, k1, v1⟩ := parse_degrees n es
  obtain ⟨d2, k2, v2⟩ := parse_degrees n es'
  have hadj : (parse (graph_lines n es)).adjacency_matrix
      = (parse (graph_lines n es')).adjacency_matrix := by
    apply square_ext n _ _ sq1 sq2
    intro x hx y hy
    rw [en1 x hx y hy, en2 x hx y hy, hits_reordered es es' h]
  have hdeg : (parse (graph_lines n es)).vertex_degrees_map
      = (parse (graph_lines n es')).vertex_degrees_map := by
    apply map_ext _ _ d1 d2
    · intro k
      rw [k1, k2, occurrences_reordered es es' h]
    · intro k
      rw [v1, v2, occurrences_reordered es es' h]
  cases h1 : parse (graph_lines n es) with
  | mk a1 m1 =>
    cases h2 : parse (graph_lines n es') with
    | mk a2 m2 =>
      rw [h1, h2] at hadj hdeg
      simp only [] at hadj hdeg
      rw [hadj, hdeg]

theorem parse_symmetric (n : Nat) (es : List (Nat × Nat)) :
    (∀ u, u < n → ∀ v, v < n →
      entry (parse (graph_lines n es)).adjacency_matrix u v
        = entry (parse (graph_lines n es)).adjacency_matrix v u) ∧
    symmetric (parse (graph_lines n es)).adjacency_matrix := by
  obtain ⟨sq, en, _, _⟩ := parse_graph_lines n es
  have hentry : ∀ u, u < n → ∀ v, v < n →
      entry (parse (graph_lines n es)).adjacency_matrix u v
        = entry (parse (graph_lines n es)).adjacency_matrix v u := by
    intro u hu v hv
    rw [en u hu v hv, en v hv u hu, hits_comm]
  refine ⟨hentry, ?_⟩
  apply symmetric_of_bounded
  · intro row hrow
    rw [sq.2 row hrow, sq.1]
  · intro u hu v hv
    rw [sq.1] at hu hv
    have := hentry u hu v hv
    unfold adjacent
    unfold entry at this
    rw [this]

/-! ## Claims on the parsing loop -/

/-- C13: for every `n` and every list of edge lines with ids in `1 .. n`, the
matrix the parsing loop builds has `adjacency_matrix[u][v] ==
adjacency_matrix[v][u]` for all `u, v < n`, and `adjacent(u, v)` holds exactly
when `adjacent(v, u)` holds. -/
theorem parsed_matrix_symmetric (n : Nat) (es : List (Nat × Nat))
    (hrange : ∀ l ∈ es, 1 ≤ l.1 ∧ l.1 ≤ n ∧ 1 ≤ l.2 ∧ l.2 ≤ n) :
    (∀ u, u < n → ∀ v, v < n →
      entry (parse (graph_lines n es)).adjacency_matrix u v
        = entry (parse (graph_lines n es)).adjacency_matrix v u) ∧
    (∀ u v, adjacent (parse (graph_lines n es)).adjacency_matrix u v
        = adjacent (parse (graph_lines n es)).adjacency_matrix v u) :=
  have _ := hrange
  parse_symmetric n es

theorem parsed_matrix_symmetric_witness :
    (∀ l ∈ [((5 : Nat), (1 : Nat)), (5, 2), (5, 3), (5, 4), (3, 4), (4, 6)],
      1 ≤ l.1 ∧ l.1 ≤ 6 ∧ 1 ≤ l.2 ∧ l.2 ≤ 6) ∧
    entry (parse (graph_lines 6 [(5, 1), (5, 2), (5, 3), (5, 4), (3, 4), (4, 6)])).adjacency_matrix
      3 5 = 1 ∧
    ((∀ u, u < 6 → ∀ v, v < 6 →
      entry (parse (graph_lines 6
          [(5, 1), (5, 2), (5, 3), (5, 4), (3, 4), (4, 6)])).adjacency_matrix u v
        = entry (parse (graph_lines 6
          [(5, 1), (5, 2), (5, 3), (5, 4), (3, 4), (4, 6)])).adjacency_matrix v u) ∧
    (∀ u v, adjacent (parse (graph_lines 6
          [(5, 1), (5, 2), (5, 3), (5, 4), (3, 4), (4, 6)])).adjacency_matrix u v
        = adjacent (parse (graph_lines 6
          [(5, 1), (5, 2), (5, 3), (5, 4), (3, 4), (4, 6)])).adjacency_matrix v u)) :=
  ⟨by decide, by decide,
    parsed_matrix_symmetric 6 [(5, 1), (5, 2), (5, 3), (5, 4), (3, 4), (4, 6)] (by decide)⟩

/-- C12: for every `n`, every list `es` of edge lines with ids in `1 .. n` and
every list `es'` that gives the same lines in another order, some with their
endpoints exchanged, the parsing loop builds the same adjacency matrix and the
same degree map from both, so the whole run is the same for every clock, and
with it the clique size reported. -/
theorem parsing_order_independent (n : Nat) (es es' : List (Nat × Nat))
    (hrange : ∀ l ∈ es, 1 ≤ l.1 ∧ l.1 ≤ n ∧ 1 ≤ l.2 ∧ l.2 ≤ n)
    (h : reordered es es') :
    (parse (graph_lines n es)).adjacency_matrix
      = (parse (graph_lines n es')).adjacency_matrix ∧
    (parse (graph_lines n es)).vertex_degrees_map
      = (parse (graph_lines n es')).vertex_degrees_map ∧
    (∀ expired, run_main (graph_lines n es) expired = run_main (graph_lines n es') expired) ∧
    reported_size (run_main (graph_lines n es) never)
      = reported_size (run_main (graph_lines n es') never) := by
  have _ := hrange
  have hp := parse_reordered n es es' h
  refine ⟨by rw [hp], by rw [hp], ?_, ?_⟩
  · intro expired
    simp only [run_main, hp]
  · simp only [run_main, hp]

theorem parsing_order_independent_witness :
    (∀ l ∈ [((1 : Nat), (2 : Nat)), (2, 3), (1, 3), (3, 4)],
      1 ≤ l.1 ∧ l.1 ≤ 4 ∧ 1 ≤ l.2 ∧ l.2 ≤ 4) ∧
    reordered [(1, 2), (2, 3), (1, 3), (3, 4)] [(4, 3), (3, 2), (1, 2), (1, 3)] ∧
    reported_size (run_main (graph_lines 4 [(1, 2), (2, 3), (1, 3), (3, 4)]) never) = some 3 ∧
    ((parse (graph_lines 4 [(1, 2), (2, 3), (1, 3), (3, 4)])).adjacency_matrix
      = (parse (graph_lines 4 [(4, 3), (3, 2), (1, 2), (1, 3)])).adjacency_matrix ∧
    (parse (graph_lines 4 [(1, 2), (2, 3), (1, 3), (3, 4)])).vertex_degrees_map
      = (parse (graph_lines 4 [(4, 3), (3, 2), (1, 2), (1, 3)])).vertex_degrees_map ∧
    (∀ expired, run_main (graph_lines 4 [(1, 2), (2, 3), (1, 3), (3, 4)]) expired
      = run_main (graph_lines 4 [(4, 3), (3, 2), (1, 2), (1, 3)]) expired) ∧
    reported_size (run_main (graph_lines 4 [(1, 2), (2, 3), (1, 3), (3, 4)]) never)
      = reported_size (run_main (graph_lines 4 [(4, 3), (3, 2), (1, 2), (1, 3)]) never)) :=
  have hre : reordered [(1, 2), (2, 3), (1, 3), (3, 4)] [(4, 3), (3, 2), (1, 2), (1, 3)] :=
    ⟨[(1, 2), (3, 2), (1, 3), (4, 3)],
      List.Forall₂.cons (Or.inl rfl) (List.Forall₂.cons (Or.inr rfl)
        (List.Forall₂.cons (Or.inl rfl) (List.Forall₂.cons (Or.inr rfl) List.Forall₂.nil))),
      by decide⟩
  ⟨by decide, hre, by decide,
    parsing_order_independent 4 [(1, 2), (2, 3), (1, 3), (3, 4)]
      [(4, 3), (3, 2), (1, 2), (1, 3)] (by decide) hre⟩

/-! ## Maximal cliques -/

theorem seed_clique_complete (adj : vertex_matrix) (e : vertex × Nat) :
    candidates_complete adj (seed_clique adj e) := by
  intro w hw hall
  simp only [seed_clique] at hall ⊢
  exact (mem_get_connected_zero adj e.1 w).mpr ⟨hw, hall e.1 (by simp)⟩

theorem temp_q_complete (adj : vertex_matrix) (Q : clique) (c : vertex)
    (hQ : candidates_complete adj Q) : candidates_complete adj (temp_q adj Q c) := by
  intro w hw hall
  simp only [temp_q] at hall ⊢
  rw [mem_find_candidates]
  refine ⟨hQ w hw (fun a ha => hall a (List.mem_append_left _ ha)), hw, ?_⟩
  exact hall c (by simp)

theorem seed_loop_maximal (adj : vertex_matrix) (hsym : symmetric adj) (hloop : loop_free adj)
    (expired : Nat → Bool) (seeds : List (vertex × Nat)) :
    (seed_loop adj expired seeds initial_state).ends_in
      (fun s =>
        (∀ q ∈ s.assigned,
          pairwise_adjacent adj q.m_vertices ∧ inclusion_maximal adj q.m_vertices) ∧
        (s.optimal_clique.m_vertices ≠ [] →
          pairwise_adjacent adj s.optimal_clique.m_vertices ∧
          inclusion_maximal adj s.optimal_clique.m_vertices)) := by
  have hmax : ∀ Q : clique, candidates_complete adj Q → Q.m_candidates.length = 0 →
      inclusion_maximal adj Q.m_vertices := by
    intro Q hQ hempty w hw hall
    have hmem := hQ w hw hall
    rw [List.length_eq_zero.mp hempty] at hmem
    simp at hmem
  apply seed_loop_ends_in adj expired
    (fun Q => (partial_clique_inv adj Q ∧ Q.m_vertices.Nodup) ∧ candidates_complete adj Q)
  · exact fun Q c hQ hc =>
      ⟨⟨temp_q_inv adj hsym hloop Q c hQ.1.1 hc, temp_q_nodup adj Q c hQ.1.1 hQ.1.2 hc⟩,
        temp_q_complete adj Q c hQ.2⟩
  · intro Q st _ hst
    exact hst
  · intro Q st hQ hst _ hempty
    have hgood : pairwise_adjacent adj Q.m_vertices ∧ inclusion_maximal adj Q.m_vertices :=
      ⟨pairwise_adjacent_of_inv adj Q hQ.1.1 hQ.1.2, hmax Q hQ.2 hempty⟩
    refine ⟨?_, fun _ => hgood⟩
    intro q hq
    simp only [List.mem_append, List.mem_singleton] at hq
    rcases hq with hq | hq
    · exact hst.1 q hq
    · rw [hq]; exact hgood
  · intro st hst
    exact hst
  · exact fun e _ =>
      ⟨⟨seed_clique_inv adj hsym hloop e, seed_clique_nodup adj e⟩,
        seed_clique_complete adj e⟩
  · refine ⟨?_, ?_⟩
    · intro q hq
      simp [initial_state] at hq
    · intro h
      simp [initial_state] at h

theorem Outcome.ends_with_of_ends_in (P : SearchState → Prop) (o : Outcome)
    (h : o.ends_in P) : o.ends_with P (fun _ => True) := by
  cases o with
  | returned s => exact h
  | out_of_time s => trivial
  | no_fuel s => exact h

/-- Starting with an empty `optimal_clique`, a call on a clique with at least
one vertex that returns leaves an `optimal_clique` at least as large as the
clique, and larger if the clique has candidates. -/
theorem first_descent (adj : vertex_matrix) (hloop : loop_free adj) (expired : Nat → Bool) :
    ∀ fuel Q st, Q.m_candidates.length < fuel → st.optimal_clique.m_vertices = [] →
      Q.m_vertices ≠ [] →
      (max_clique adj expired fuel Q st).ends_with
        (fun s => Q.m_vertices.length + (if Q.m_candidates = [] then 0 else 1)
          ≤ s.optimal_clique.m_vertices.length)
        (fun _ => True) := by
  intro fuel
  induction fuel with
  | zero => intro Q st h; omega
  | succ fuel ih =>
    intro Q st hlen hopt hne
    have hub := upper_bound_pos adj Q hne
    have hnp : ¬ upper_bound adj Q ≤ st.optimal_clique.m_vertices.length := by
      rw [hopt]
      simp only [List.length_nil]
      omega
    by_cases hnil : Q.m_candidates = []
    · have hlen0 : Q.m_candidates.length = 0 := by rw [hnil]; rfl
      simp only [hnil, if_true]
      unfold max_clique
      simp only []
      rw [if_neg hnp, if_pos hlen0]
      show Q.m_vertices.length + 0 ≤ Q.m_vertices.length
      omega
    · have hlen0 : ¬ Q.m_candidates.length = 0 := fun h => hnil (List.length_eq_zero.mp h)
      simp only [hnil, if_false]
      unfold max_clique
      simp only []
      rw [if_neg hnp, if_neg hlen0]
      by_cases hexp : expired st.checks = true
      · rw [if_pos hexp]
        trivial
      · rw [if_neg hexp]
        cases hcs : Q.m_candidates with
        | nil => exact absurd hcs hnil
        | cons c rest =>
          have hcmem : c ∈ Q.m_candidates := by rw [hcs]; exact List.mem_cons_self _ _
          have hchild := ih (temp_q adj Q c)
            { optimal_clique := st.optimal_clique, checks := st.checks + 1,
              calls := st.calls ++ [Q], assigned := st.assigned }
            (by
              have := find_candidates_length_lt adj Q c hloop hcmem
              simp only [temp_q]
              omega)
            hopt (by simp [temp_q])
          have hsize : (temp_q adj Q c).m_vertices.length = Q.m_vertices.length + 1 := by
            simp [temp_q]
          unfold branch_loop
          cases hres : max_clique adj expired fuel (temp_q adj Q c)
              { optimal_clique := st.optimal_clique, checks := st.checks + 1,
                calls := st.calls ++ [Q], assigned := st.assigned } with
          | returned s' =>
            rw [hres] at hchild
            have hs' : Q.m_vertices.length + 1 ≤ s'.optimal_clique.m_vertices.length := by
              have : (temp_q adj Q c).m_vertices.length
                  + (if (temp_q adj Q c).m_candidates = [] then 0 else 1)
                  ≤ s'.optimal_clique.m_vertices.length := hchild
              omega
            apply branch_loop_ends_with adj _ Q
              (fun s => Q.m_vertices.length + 1 ≤ s.optimal_clique.m_vertices.length)
            · intro c' _ st' hst'
              exact Outcome.ends_with_of_ends_in _ _
                (max_clique_size_ge adj expired _ fuel _ st' hst')
            · exact hs'
          | out_of_time s' => trivial
          | no_fuel s' =>
            rw [hres] at hchild
            have : (temp_q adj Q c).m_vertices.length
                + (if (temp_q adj Q c).m_candidates = [] then 0 else 1)
                ≤ s'.optimal_clique.m_vertices.length := hchild
            show Q.m_vertices.length + 1 ≤ s'.optimal_clique.m_vertices.length
            omega

/-- A completed search whose first seed has a neighbour leaves a clique of at
least two vertices. -/
theorem search_size_ge_two (adj : vertex_matrix) (hloop : loop_free adj)
    (expired : Nat → Bool) (seeds : List (vertex × Nat)) (hne : seeds ≠ [])
    (hnb : ∀ e ∈ seeds, get_connected adj e.1 0 ≠ []) (s : SearchState)
    (hs : search adj expired seeds = .returned s) :
    2 ≤ s.optimal_clique.m_vertices.length := by
  cases seeds with
  | nil => exact absurd rfl hne
  | cons e rest =>
    have h1 := first_descent adj hloop expired (adj.length + 1) (seed_clique adj e)
      initial_state
      (by
        have := get_connected_length_le adj e.1 0
        simp only [seed_clique]
        omega)
      (by simp [initial_state]) (by simp [seed_clique])
    have hcne : (seed_clique adj e).m_candidates ≠ [] := hnb e (List.mem_cons_self _ _)
    simp only [hcne, if_false] at h1
    unfold search seed_loop at hs
    cases hres : max_clique adj expired (adj.length + 1) (seed_clique adj e) initial_state with
    | returned s1 =>
      rw [hres] at hs h1
      have h1' : 2 ≤ s1.optimal_clique.m_vertices.length := by
        have : (seed_clique adj e).m_vertices.length + 1
            ≤ s1.optimal_clique.m_vertices.length := h1
        simp only [seed_clique, List.length_singleton] at this
        omega
      have h2 := seed_loop_size_ge adj expired 2 rest s1 h1'
      simp only [] at hs
      rw [hs] at h2
      exact h2
    | out_of_time s1 => rw [hres] at hs; cases hs
    | no_fuel s1 => rw [hres] at hs; cases hs

theorem parsed_loop_free (n : Nat) (hn : n < word) (es : List (Nat × Nat))
    (hrange : ∀ l ∈ es, 1 ≤ l.1 ∧ l.1 ≤ n ∧ 1 ≤ l.2 ∧ l.2 ≤ n ∧ l.1 ≠ l.2) :
    loop_free (parse (graph_lines n es)).adjacency_matrix := by
  obtain ⟨sq, en, _, _⟩ := parse_graph_lines n es
  apply loop_free_of_bounded
  intro v hv
  rw [sq.1] at hv
  have hadj : adjacent (parse (graph_lines n es)).adjacency_matrix v v
      = decide (entry (parse (graph_lines n es)).adjacency_matrix v v > 0) := rfl
  rw [hadj, en v hv v hv, hits_diagonal n hn es hrange v]
  simp

theorem hits_le (es : List (Nat × Nat)) (x y : vertex) : hits es x y ≤ 2 * es.length := by
  unfold hits
  have h1 := List.countP_le_length
    (fun l : Nat × Nat => decide (vertex_of_id l.1 = x ∧ vertex_of_id l.2 = y)) (l := es)
  have h2 := List.countP_le_length
    (fun l : Nat × Nat => decide (vertex_of_id l.2 = x ∧ vertex_of_id l.1 = y)) (l := es)
  omega

theorem hits_pos_of_mem (es : List (Nat × Nat)) (l : Nat × Nat) (hl : l ∈ es) :
    0 < hits es (vertex_of_id l.1) (vertex_of_id l.2) := by
  unfold hits
  have : 0 < es.countP
      (fun l' => decide (vertex_of_id l'.1 = vertex_of_id l.1 ∧
        vertex_of_id l'.2 = vertex_of_id l.2)) := by
    rw [List.countP_pos_iff]
    exact ⟨l, hl, by simp⟩
  omega

/-- Every key of the degree map built from well-formed edge lines has a
neighbour in the matrix built from them. -/
theorem parsed_seeds_have_neighbours (n : Nat) (hn : n < word) (es : List (Nat × Nat))
    (hlen : 2 * es.length < word)
    (hrange : ∀ l ∈ es, 1 ≤ l.1 ∧ l.1 ≤ n ∧ 1 ≤ l.2 ∧ l.2 ≤ n ∧ l.1 ≠ l.2) :
    ∀ e ∈ (parse (graph_lines n es)).vertex_degrees_map,
      get_connected (parse (graph_lines n es)).adjacency_matrix e.1 0 ≠ [] := by
  obtain ⟨sq, en, hkeys, _⟩ := parse_graph_lines n es
  have hedge : ∀ l ∈ es, ∀ x y, x < n → y < n →
      0 < hits es x y →
      y ∈ get_connected (parse (graph_lines n es)).adjacency_matrix x 0 := by
    intro l _ x y hx hy hpos
    rw [mem_get_connected_zero, sq.1]
    refine ⟨hy, ?_⟩
    have hadj : adjacent (parse (graph_lines n es)).adjacency_matrix x y
        = decide (entry (parse (graph_lines n es)).adjacency_matrix x y > 0) := rfl
    rw [hadj, en x hx y hy, Nat.mod_eq_of_lt (Nat.lt_of_le_of_lt (hits_le es x y) hlen)]
    simpa using hpos
  intro e he
  obtain ⟨l, hl, h⟩ := hkeys e.1 (List.mem_map_of_mem Prod.fst he)
  obtain ⟨h1, h2, h3, h4, _⟩ := hrange l hl
  have hv1 : vertex_of_id l.1 < n := by
    rw [vertex_of_id_eq l.1 n h1 h2 hn]
    unfold vertex at *
    omega
  have hv2 : vertex_of_id l.2 < n := by
    rw [vertex_of_id_eq l.2 n h3 h4 hn]
    unfold vertex at *
    omega
  have hpos := hits_pos_of_mem es l hl
  rcases h with h | h
  · rw [h]
    exact List.ne_nil_of_mem (hedge l hl _ _ hv1 hv2 hpos)
  · rw [h]
    rw [hits_comm] at hpos
    exact List.ne_nil_of_mem (hedge l hl _ _ hv2 hv1 hpos)

/-- C19: (1) on a matrix with symmetric adjacency and no self-adjacency,
whatever the seeds and the clock, every value assigned to `optimal_clique`
and the value it holds when it is not empty is a clique that no vertex of the
graph extends; (2) when the search returns and every seed has a neighbour,
`optimal_clique` has at least two vertices; (3) this is the case for every
input of `n < 2 ^ 64` vertices with at least one and fewer than `2 ^ 63` edge
lines, each joining two different ids of `1 .. n`: if the run returns,
the size reported is at least `2`, and with a budget that never expires it
returns. -/
theorem optimal_clique_maximal :
    (∀ adjacency_matrix, symmetric adjacency_matrix → loop_free adjacency_matrix →
      ∀ (expired : Nat → Bool) (vertex_degrees : List (vertex × Nat)),
        (search adjacency_matrix expired vertex_degrees).ends_in
          (fun s =>
            (∀ q ∈ s.assigned,
              pairwise_adjacent adjacency_matrix q.m_vertices ∧
              inclusion_maximal adjacency_matrix q.m_vertices) ∧
            (s.optimal_clique.m_vertices ≠ [] →
              pairwise_adjacent adjacency_matrix s.optimal_clique.m_vertices ∧
              inclusion_maximal adjacency_matrix s.optimal_clique.m_vertices))) ∧
    (∀ adjacency_matrix, loop_free adjacency_matrix →
      ∀ (expired : Nat → Bool) (vertex_degrees : List (vertex × Nat)) (s : SearchState),
        vertex_degrees ≠ [] →
        (∀ element ∈ vertex_degrees, get_connected adjacency_matrix element.1 0 ≠ []) →
        search adjacency_matrix expired vertex_degrees = .returned s →
        2 ≤ s.optimal_clique.m_vertices.length) ∧
    (∀ (n : Nat) (es : List (Nat × Nat)),
      n < word → 2 * es.length < word → es ≠ [] →
      (∀ l ∈ es, 1 ≤ l.1 ∧ l.1 ≤ n ∧ 1 ≤ l.2 ∧ l.2 ≤ n ∧ l.1 ≠ l.2) →
      (∀ (expired : Nat → Bool) (s : SearchState),
        run_main (graph_lines n es) expired = .returned s →
        2 ≤ s.optimal_clique.m_vertices.length) ∧
      ∃ k, reported_size (run_main (graph_lines n es) never) = some k ∧ 2 ≤ k) := by
  refine ⟨?_, ?_, ?_⟩
  · intro adj hsym hloop expired seeds
    exact seed_loop_maximal adj hsym hloop expired seeds
  · intro adj hloop expired seeds s hne hnb hs
    exact search_size_ge_two adj hloop expired seeds hne hnb s hs
  · intro n es hn hlen hes hrange
    have hloop := parsed_loop_free n hn es hrange
    have hnb := parsed_seeds_have_neighbours n hn es hlen hrange
    have hdne : (parse (graph_lines n es)).vertex_degrees_map ≠ [] :=
      (parse_graph_lines n es).2.2.2 hes
    have hperm := sort_by_degree_perm (parse (graph_lines n es)).vertex_degrees_map
    have hsne : sort_by_degree (parse (graph_lines n es)).vertex_degrees_map ≠ [] := by
      intro h
      rw [h] at hperm
      exact hdne hperm.symm.eq_nil
    have hsnb : ∀ e ∈ sort_by_degree (parse (graph_lines n es)).vertex_degrees_map,
        get_connected (parse (graph_lines n es)).adjacency_matrix e.1 0 ≠ [] :=
      fun e he => hnb e (hperm.subset he)
    have key : ∀ (expired : Nat → Bool) (s : SearchState),
        run_main (graph_lines n es) expired = .returned s →
        2 ≤ s.optimal_clique.m_vertices.length := by
      intro expired s hs
      exact search_size_ge_two _ hloop expired _ hsne hsnb s hs
    refine ⟨key, ?_⟩
    obtain ⟨s, hs⟩ := Outcome.exists_of_is_returned _
      (seed_loop_is_returned (parse (graph_lines n es)).adjacency_matrix hloop
        (sort_by_degree (parse (graph_lines n es)).vertex_degrees_map) initial_state)
    have hrun : run_main (graph_lines n es) never = .returned s := hs
    refine ⟨s.optimal_clique.m_vertices.length, ?_, key never s hrun⟩
    rw [hrun]
    rfl

theorem optimal_clique_maximal_witness :
    (symmetric kite ∧ loop_free kite ∧
      (search kite (fun k => decide (1 ≤ k)) [(3, 3), (4, 4)]).ends_in
        (fun s =>
          (∀ q ∈ s.assigned,
            pairwise_adjacent kite q.m_vertices ∧ inclusion_maximal kite q.m_vertices) ∧
          (s.optimal_clique.m_vertices ≠ [] →
            pairwise_adjacent kite s.optimal_clique.m_vertices ∧
            inclusion_maximal kite s.optimal_clique.m_vertices))) ∧
    (([((4 : vertex), (4 : Nat)), (3, 3), (2, 2)] ≠ []) ∧
      (∀ element ∈ [((4 : vertex), (4 : Nat)), (3, 3), (2, 2)],
        get_connected kite element.1 0 ≠ []) ∧
      search kite never [(4, 4), (3, 3), (2, 2)] = .returned
        { optimal_clique := { m_vertices := [4, 0], m_candidates := [] },
          checks := 1,
          calls := [{ m_vertices := [4], m_candidates := [0, 1, 2, 3] },
                    { m_vertices := [4, 0], m_candidates := [] },
                    { m_vertices := [4, 1], m_candidates := [] },
                    { m_vertices := [4, 2], m_candidates := [3] },
                    { m_vertices := [4, 3], m_candidates := [2] },
                    { m_vertices := [3], m_candidates := [2, 4, 5] },
                    { m_vertices := [2], m_candidates := [3, 4] }],
          assigned := [{ m_vertices := [4, 0], m_candidates := [] }] } ∧
      2 ≤ ({ m_vertices := [4, 0], m_candidates := [] } : clique).m_vertices.length) ∧
    ((6 < word ∧ 2 * [((5 : Nat), (1 : Nat)), (5, 2), (5, 3), (5, 4), (3, 4), (4, 6)].length < word ∧
      [((5 : Nat), (1 : Nat)), (5, 2), (5, 3), (5, 4), (3, 4), (4, 6)] ≠ [] ∧
      (∀ l ∈ [((5 : Nat), (1 : Nat)), (5, 2), (5, 3), (5, 4), (3, 4), (4, 6)],
        1 ≤ l.1 ∧ l.1 ≤ 6 ∧ 1 ≤ l.2 ∧ l.2 ≤ 6 ∧ l.1 ≠ l.2)) ∧
      ∃ k, reported_size (run_main
          (graph_lines 6 [(5, 1), (5, 2), (5, 3), (5, 4), (3, 4), (4, 6)]) never) = some k ∧
        2 ≤ k) :=
  ⟨⟨kite_symmetric, kite_loop_free,
     optimal_clique_maximal.1 kite kite_symmetric kite_loop_free (fun k => decide (1 ≤ k))
       [(3, 3), (4, 4)]⟩,
   ⟨by decide, by decide, by decide,
     optimal_clique_maximal.2.1 kite kite_loop_free never [(4, 4), (3, 3), (2, 2)]
       { optimal_clique := { m_vertices := [4, 0], m_candidates := [] },
         checks := 1,
         calls := [{ m_vertices := [4], m_candidates := [0, 1, 2, 3] },
                   { m_vertices := [4, 0], m_candidates := [] },
                   { m_vertices := [4, 1], m_candidates := [] },
                   { m_vertices := [4, 2], m_candidates := [3] },
                   { m_vertices := [4, 3], m_candidates := [2] },
                   { m_vertices := [3], m_candidates := [2, 4, 5] },
                   { m_vertices := [2], m_candidates := [3, 4] }],
         assigned := [{ m_vertices := [4, 0], m_candidates := [] }] }
       (by decide) (by decide) (by decide)⟩,
   ⟨⟨by decide, by decide, by decide, by decide⟩,
     (optimal_clique_maximal.2.2 6 [(5, 1), (5, 2), (5, 3), (5, 4), (3, 4), (4, 6)]
       (by decide) (by decide) (by decide) (by decide)).2⟩⟩

/-! ## The seed order -/

theorem mem_sort_insert (x a : vertex × Nat) (l : List (vertex × Nat)) :
    a ∈ sort_insert x l ↔ a = x ∨ a ∈ l := by
  rw [(sort_insert_perm x l).mem_iff, List.mem_cons]

theorem sort_insert_sorted (x : vertex × Nat) (l : List (vertex × Nat))
    (h : l.Pairwise (fun a b => degree_gt b a = false)) :
    (sort_insert x l).Pairwise (fun a b => degree_gt b a = false) := by
  induction l with
  | nil => simp [sort_insert]
  | cons y rest ih =>
    obtain ⟨h1, h2⟩ := List.pairwise_cons.mp h
    unfold sort_insert
    by_cases hxy : degree_gt x y = true
    · rw [if_pos hxy, List.pairwise_cons]
      refine ⟨?_, h⟩
      intro b hb
      simp only [degree_gt, decide_eq_true_eq, decide_eq_false_iff_not] at hxy ⊢
      rcases List.mem_cons.mp hb with hb | hb
      · rw [hb]; omega
      · have := h1 b hb
        simp only [degree_gt, decide_eq_false_iff_not] at this
        omega
    · rw [if_neg hxy, List.pairwise_cons]
      refine ⟨?_, ih h2⟩
      intro b hb
      rcases (mem_sort_insert x b rest).mp hb with hb | hb
      · rw [hb]
        simpa using hxy
      · exact h1 b hb

theorem sort_fold_sorted (l : List (vertex × Nat)) :
    ∀ sorted : List (vertex × Nat),
      sorted.Pairwise (fun a b => degree_gt b a = false) →
      (l.foldl (fun sorted x => sort_insert x sorted) sorted).Pairwise
        (fun a b => degree_gt b a = false) := by
  induction l with
  | nil => intro sorted h; exact h
  | cons x rest ih =>
    intro sorted h
    simp only [List.foldl_cons]
    exact ih _ (sort_insert_sorted x sorted h)

/-- The order the model gives the seeds is one `std::sort` may produce. -/
theorem sort_by_degree_admissible (l : List (vertex × Nat)) :
    sorted_by_degree l (sort_by_degree l) :=
  ⟨sort_by_degree_perm l, sort_fold_sorted l [] List.Pairwise.nil⟩

/-! ## The seed loop at an arbitrary depth allowance -/

end Clique
